import Mathlib

/-
Verification development for the PTO trace engine
(`pto/core/base/tracer.py`, `pto/core/base/distribution.py`,
`pto/core/base/trace_operators.py`,
`pto/core/fine_distributions/distributions.py`, `supp.py`).

Modelling conventions:
* Python numbers (int and float) are modelled as rationals; arithmetic is exact.
* Randomness is an explicit stream of rational draws standing for the standard
  library `random` source; each stdlib primitive (`random`, `uniform`,
  `randint`, `choice`, ...) is modelled by a deterministic function of that
  stream whose result satisfies the primitive's contract.
* Python exceptions are an explicit error type; fallible code returns `Except`.
* Python dicts (traces) are insertion-ordered association lists.
* In-place mutation of argument-reachable state is made explicit: operators
  return, next to their result, the post-state of every mutable argument,
  with the one real aliasing in the source (the replacement pool of the
  sequence crossover is the backing sequence itself for the choices
  sub-variant) threaded through.
-/

set_option linter.unusedVariables false

namespace PTO

/-- Atoms are the elements of categorical and sequence-valued distributions,
modelled as integers. -/
abbrev Atom := Int

/-- Explicit randomness source: a stream of rational draws; an exhausted
stream yields 0. -/
abbrev Entropy := List ℚ

/-- Pull the next raw random number from the stream. -/
def nextR : Entropy → ℚ × Entropy
  | [] => (0, [])
  | q :: e => (q, e)

/-- Python exceptions raised by the modelled code paths. -/
inductive PyErr where
  | valueError (msg : String)
  | typeError (msg : String)
  | indexError (msg : String)
  | attributeError (msg : String)
  | assertionError (msg : String)
  | zeroDivisionError
deriving DecidableEq

/-- Python values held by a distribution: `None`, a number, or a list. -/
inductive PVal where
  | vnone
  | num (q : ℚ)
  | lst (l : List Atom)
deriving DecidableEq

/-- View an atom as the value it is stored as. -/
def PVal.ofAtom (a : Atom) : PVal := .num (a : ℚ)

/-- Numeric projection of a value; anything else is a Python `TypeError`. -/
def PVal.q : PVal → Except PyErr ℚ
  | .num x => .ok x
  | _ => .error (.typeError "number expected")

/-- List projection of a value; anything else is a Python `TypeError`. -/
def PVal.list : PVal → Except PyErr (List Atom)
  | .lst l => .ok l
  | _ => .error (.typeError "list expected")

/-- Integer projection of a rational; a fractional number where Python needs
an int is a `TypeError`. -/
def toIntQ (x : ℚ) : Except PyErr ℤ :=
  if x.den = 1 then .ok x.num else .error (.typeError "integer expected")

/-- The random functions wrapped by the library (the `rng_specs` table in
`supp.py`), each carrying its call arguments. -/
inductive RFun where
  | random
  | uniform (a b : ℚ)
  | randint (a b : ℤ)
  | randrange (start stop step : ℤ)
  | choice (seq : List Atom)
  | shuffle (seq : List Atom)
  | sample (seq : List Atom) (k : ℕ)
  | choices (seq : List Atom) (k : ℕ)
deriving DecidableEq

/-- The Python-level function name (`fun.__name__`), the key used by every
kind-compatibility check in the source. -/
def RFun.fname : RFun → String
  | .random => "random"
  | .uniform _ _ => "uniform"
  | .randint _ _ => "randint"
  | .randrange _ _ _ => "randrange"
  | .choice _ => "choice"
  | .shuffle _ => "shuffle"
  | .sample _ _ => "sample"
  | .choices _ _ => "choices"

/-- The four distribution families of `rng_specs` (`type` field). -/
inductive Kind where
  | real
  | int
  | cat
  | seq
deriving DecidableEq

/-- Which wrapper class (`Random_real`, `Random_int`, `Random_cat`,
`Random_seq`) handles the function, per the `CLASS_MAP` in
`traceables.py`. -/
def RFun.kind : RFun → Kind
  | .random => .real
  | .uniform _ _ => .real
  | .randint _ _ => .int
  | .randrange _ _ _ => .int
  | .choice _ => .cat
  | .shuffle _ => .seq
  | .sample _ _ => .seq
  | .choices _ _ => .seq

/-- Derived support of a real-kind function: (min, max, range), per
`rng_specs`. Junk for other kinds, mirroring absent Python attributes. -/
def RFun.realParams : RFun → ℚ × ℚ × ℚ
  | .random => (0, 1, 1)
  | .uniform a b => (a, b, b - a)
  | _ => (0, 0, 0)

/-- Derived support of an int-kind function: (min, max, step), per
`rng_specs` (`randrange` excludes its stop bound). -/
def RFun.intParams : RFun → ℤ × ℤ × ℤ
  | .randint a b => (a, b, 1)
  | .randrange s t st => (s, t - 1, st)
  | _ => (0, 0, 0)

/-- Candidate sequence of a categorical function. -/
def RFun.catSeq : RFun → List Atom
  | .choice s => s
  | _ => []

/-- Backing sequence and selection count of a sequence-kind function; for
`shuffle` the count is the full length, per `rng_specs`. -/
def RFun.seqParams : RFun → List Atom × ℕ
  | .shuffle s => (s, s.length)
  | .sample s k => (s, k)
  | .choices s k => (s, k)
  | _ => ([], 0)

/-- Draw in the unit interval, the model of `random.random()`. -/
def drawUnit (e : Entropy) : ℚ × Entropy :=
  let p := nextR e
  (Int.fract p.1, p.2)

/-- Model of `random.uniform(a, b)`. -/
def drawUniform (a b : ℚ) (e : Entropy) : ℚ × Entropy :=
  let p := drawUnit e
  (a + (b - a) * p.1, p.2)

/-- Model of `random.gauss(mu, sigma)`: an unbounded draw scaled by sigma. -/
def drawGauss (mu sigma : ℚ) (e : Entropy) : ℚ × Entropy :=
  let p := nextR e
  (mu + sigma * p.1, p.2)

/-- Model of `random.randint(a, b)`: uniform integer with both ends included;
an empty range is a `ValueError`. -/
def drawRandint (a b : ℤ) (e : Entropy) : Except PyErr (ℤ × Entropy) :=
  if b < a then .error (.valueError "empty range for randint") else
  let p := drawUnit e
  .ok (a + ⌊p.1 * (b - a + 1 : ℚ)⌋, p.2)

/-- Model of `random.randrange(n)`: an index below n; n = 0 is a
`ValueError`. -/
def drawIndex (n : ℕ) (e : Entropy) : Except PyErr (ℕ × Entropy) :=
  if n = 0 then .error (.valueError "empty range for randrange") else
  let p := drawUnit e
  .ok ((⌊p.1 * (n : ℚ)⌋).toNat, p.2)

/-- Model of `random.choice(seq)`: a uniformly chosen element; an empty
sequence is an `IndexError`. -/
def drawChoice {α : Type} (l : List α) (e : Entropy) : Except PyErr (α × Entropy) :=
  match l with
  | [] => .error (.indexError "Cannot choose from an empty sequence")
  | x :: xs =>
    let p := drawUnit e
    .ok ((x :: xs).getD (⌊p.1 * (xs.length + 1 : ℚ)⌋).toNat x, p.2)

/-- Model of drawing k distinct elements without replacement
(`random.sample` body): repeatedly draw an index and remove the element. -/
def sampleNoRepl (l : List Atom) : ℕ → Entropy → Except PyErr (List Atom × Entropy)
  | 0, e => .ok ([], e)
  | k + 1, e =>
    match drawIndex l.length e with
    | .error _ => .error (.valueError "Sample larger than population or is negative")
    | .ok (i, e1) =>
      match sampleNoRepl (l.eraseIdx i) k e1 with
      | .error er => .error er
      | .ok (rest, e2) => .ok (l.getD i 0 :: rest, e2)

/-- Model of `random.choices(seq, k=k)`: k draws with replacement. -/
def drawChoices (l : List Atom) : ℕ → Entropy → Except PyErr (List Atom × Entropy)
  | 0, e => .ok ([], e)
  | k + 1, e =>
    match drawChoice l e with
    | .error er => .error er
    | .ok (x, e1) =>
      match drawChoices l k e1 with
      | .error er => .error er
      | .ok (rest, e2) => .ok (x :: rest, e2)

/-- Fresh value of each wrapped random function (the call
`self.fun(*self.args, **self.kwargs)` in `Dist.sample`). -/
def RFun.sampleVal : RFun → Entropy → Except PyErr (PVal × Entropy)
  | .random, e => let p := drawUnit e; .ok (.num p.1, p.2)
  | .uniform a b, e => let p := drawUniform a b e; .ok (.num p.1, p.2)
  | .randint a b, e =>
    match drawRandint a b e with
    | .error er => .error er
    | .ok (v, e1) => .ok (.num (v : ℚ), e1)
  | .randrange s t st, e =>
    if st ≤ 0 then .error (.valueError "non-positive step for randrange") else
    let n : ℤ := (t - s + st - 1) / st
    if n ≤ 0 then .error (.valueError "empty range for randrange") else
    match drawIndex n.toNat e with
    | .error er => .error er
    | .ok (i, e1) => .ok (.num ((s + i * st : ℤ) : ℚ), e1)
  | .choice l, e =>
    match drawChoice l e with
    | .error er => .error er
    | .ok (a, e1) => .ok (.num (a : ℚ), e1)
  | .shuffle l, e =>
    match sampleNoRepl l l.length e with
    | .error er => .error er
    | .ok (v, e1) => .ok (.lst v, e1)
  | .sample l k, e =>
    if l.length < k then .error (.valueError "Sample larger than population or is negative") else
    match sampleNoRepl l k e with
    | .error er => .error er
    | .ok (v, e1) => .ok (.lst v, e1)
  | .choices l k, e =>
    match drawChoices l k e with
    | .error er => .error er
    | .ok (v, e1) => .ok (.lst v, e1)

/-- One recorded random decision (`Dist` in `distribution.py`): the wrapped
function with its arguments, and the currently held value. -/
structure Dist where
  fn : RFun
  val : PVal
deriving DecidableEq

/-- Fresh draw overwriting the held value (`Dist.sample`). -/
def Dist.sampleD (d : Dist) (e : Entropy) : Except PyErr (Dist × Entropy) :=
  match d.fn.sampleVal e with
  | .error er => .error er
  | .ok (v, e1) => .ok ({ d with val := v }, e1)

/-- Python `round`: round half to even. -/
def pyRound (x : ℚ) : ℤ :=
  let f := ⌊x⌋
  let r := x - f
  if r < 1 / 2 then f
  else if 1 / 2 < r then f + 1
  else if f % 2 = 0 then f else f + 1

/-- Clamp into the real support (`Random_real.repair_val`). -/
def realRepairVal (mn mx v : ℚ) : ℚ := min (max mn v) mx

/-- Round onto the step grid, then clamp (`Random_int.repair_val`); a zero
step is a Python `ZeroDivisionError`. -/
def intRepairVal (mn mx st : ℤ) (v : ℚ) : Except PyErr ℚ :=
  if st = 0 then .error .zeroDivisionError
  else
    let rv : ℤ := mn + pyRound ((v - mn) / st) * st
    .ok ((min (max mn rv) mx : ℤ) : ℚ)

/-- First-occurrence-ordered distinct elements of a list (the key order of a
Python `Counter`). -/
def firstKeys (l : List Atom) : List Atom :=
  l.foldl (fun acc a => if a ∈ acc then acc else acc ++ [a]) []

/-- Multiset difference with `Counter` semantics
(`Random_seq._multiset_diff`): each key of the first list, in first-occurrence
order, repeated by the excess of its multiplicity over the second list. -/
def multisetDiff (l1 l2 : List Atom) : List Atom :=
  (firstKeys l1).flatMap (fun a => List.replicate (l1.count a - l2.count a) a)

/-- Replacement pool per sub-variant (`Random_seq._replace_from`): no pool for
shuffle, the unused elements of the backing sequence for sample, the whole
backing sequence for choices. -/
def replacePool (fn : RFun) (v : List Atom) : List Atom :=
  match fn with
  | .sample s _ => multisetDiff s v
  | .choices s _ => s
  | _ => []

/-- Whether the replacement pool is used with replacement
(`Random_seq._replace_from`): true only for choices. -/
def replaceWithRepl (fn : RFun) : Bool :=
  match fn with
  | .choices _ _ => true
  | _ => false

/-- One iteration of the per-position pass of
`Random_seq._swap_replace_crossover` at position i, where b is the second
parent's element there: keep a match, swap with a later matching position,
else replace from the pool (removing the used element and returning the
overwritten one when the pool is exclusive), else leave the position. -/
def srStep (wr : Bool) (b : Atom) (i : ℕ) : List Atom × List Atom → List Atom × List Atom
  | (cross, pop) =>
    if cross.getD i 0 = b then (cross, pop)
    else if b ∈ cross.drop (i + 1) then
      ((cross.set i (cross.getD (i + 1 + (cross.drop (i + 1)).indexOf b) 0)).set
        (i + 1 + (cross.drop (i + 1)).indexOf b) (cross.getD i 0), pop)
    else if b ∈ pop then
      if wr then (cross.set i b, pop)
      else (cross.set i b, pop.erase b ++ [cross.getD i 0])
    else (cross, pop)

/-- Positional swap-or-replace pass between two parent sequences
(`Random_seq._swap_replace_crossover`). Returns the offspring sequence and
the final state of the replacement pool, which the Python code mutates in
place when the pool is exclusive. The crossover point is drawn unless
`end_point` selects the full common length. -/
def swapReplaceCrossover (seq1 seq2 pop : List Atom) (wr ep : Bool)
    (e : Entropy) : Except PyErr ((List Atom × List Atom) × Entropy) :=
  match (if ep then .ok (min seq1.length seq2.length, e)
      else drawIndex (min seq1.length seq2.length) e :
      Except PyErr (ℕ × Entropy)) with
  | .error er => .error er
  | .ok (point, e1) =>
    .ok ((List.range point).foldl
      (fun st i => srStep wr (seq2.getD i 0) i st) (seq1, pop), e1)

/-- Point mutation on a sequence (`Random_seq._swap_replace_mutation`): with
probability one half swap two random positions of a copy, otherwise replace
one random position with a draw from the pool (skipping when the pool is
empty). -/
def swapReplaceMutation (seq pop : List Atom) (e : Entropy) :
    Except PyErr (List Atom × Entropy) :=
  let p := drawUnit e
  if p.1 < 1 / 2 then
    if 2 ≤ seq.length then
      match sampleNoRepl ((List.range seq.length).map (fun n => (n : ℤ))) 2 p.2 with
      | .error er => .error er
      | .ok (ij, e2) =>
        let i := (ij.getD 0 0).toNat
        let j := (ij.getD 1 0).toNat
        .ok ((seq.set i (seq.getD j 0)).set j (seq.getD i 0), e2)
    else .ok (seq, p.2)
  else
    match drawIndex seq.length p.2 with
    | .error er => .error er
    | .ok (idx, e2) =>
      if pop = [] then .ok (seq, e2)
      else
        match drawChoice pop e2 with
        | .error er => .error er
        | .ok (a, e3) => .ok (seq.set idx a, e3)

/-- Greedy swap count between two sequences over the common length
(`Random_seq._swap_distance`). -/
def swapDistance (seq1 seq2 : List Atom) : ℕ :=
  ((List.range (min seq1.length seq2.length)).foldl
    (fun st i =>
      let b := seq2.getD i 0
      if b ∈ st.1 ∧ st.1.getD i 0 ≠ b then
        let j := st.1.indexOf b
        ((st.1.set i (st.1.getD j 0)).set j (st.1.getD i 0), st.2 + 1)
      else st)
    (seq1, (0 : ℕ))).2

/-- Greedy swap-or-replace counts between two sequences
(`Random_seq._swap_replace_distance`); returns the Python 3-tuple
(total, swaps, replacements). -/
def swapReplaceDistance (seq1 seq2 pool : List Atom) : ℕ × ℕ × ℕ :=
  let st := (List.range (min seq1.length seq2.length)).foldl
    (fun st i =>
      let b := seq2.getD i 0
      if st.1.getD i 0 ≠ b then
        if b ∈ st.1 then
          let j := st.1.indexOf b
          (((st.1.set i (st.1.getD j 0)).set j (st.1.getD i 0)), st.2.1 + 1, st.2.2)
        else if b ∈ pool then
          (st.1.set i b, st.2.1, st.2.2 + 1)
        else st
      else st)
    (seq1, (0 : ℕ), (0 : ℕ))
  (st.2.1 + st.2.2, st.2.1, st.2.2)

/-- Count of replaceable positional differences
(`Random_seq._replace_distance`). -/
def replaceDistance (seq1 seq2 pool : List Atom) : ℕ :=
  ((List.range (min seq1.length seq2.length)).filter
    (fun i => decide (seq1.getD i 0 ≠ seq2.getD i 0 ∧ seq2.getD i 0 ∈ pool))).length

/-- Kind-specific repair (`Random_real.repair`, `Random_int.repair`,
`Random_cat.repair`, `Random_seq.repair` in `distributions.py`). The dispatch
condition in the source is equality of the wrapped function names only; any
name mismatch falls through to the base class `Dist.repair`, which is a fresh
`sample()`. The sequence branch mirrors the source faithfully, including its
calls to the undefined attributes `_swap_crossover` (shuffle) and
`_replace_crossover` (choices). -/
def Dist.repairD (d other : Dist) (e : Entropy) : Except PyErr (Dist × Entropy) :=
  if d.fn.fname = other.fn.fname then
    match d.fn.kind with
    | .real =>
      let mp := d.fn.realParams
      let op := other.fn.realParams
      match other.val.q with
      | .error er => .error er
      | .ok ov =>
        if op.2.2 = 0 then .error .zeroDivisionError
        else .ok ({ d with
          val := .num (realRepairVal mp.1 mp.2.1
            ((ov - op.1) / op.2.2 * mp.2.2 + mp.1)) }, e)
    | .int =>
      let mp := d.fn.intParams
      let op := other.fn.intParams
      match other.val.q with
      | .error er => .error er
      | .ok ov =>
        if op.2.2 = 0 then .error .zeroDivisionError
        else
          match intRepairVal mp.1 mp.2.1 mp.2.2
              ((ov - op.1) / op.2.2 * mp.2.2 + mp.1) with
          | .error er => .error er
          | .ok v => .ok ({ d with val := .num v }, e)
    | .cat =>
      let s := d.fn.catSeq
      let os := other.fn.catSeq
      if s.any (fun a => decide (PVal.ofAtom a = other.val)) then
        .ok ({ d with val := other.val }, e)
      else
        let diffSeq := s.filter (fun a => decide (a ∉ os))
        match drawChoice (if diffSeq = [] then s else diffSeq) e with
        | .error er => .error er
        | .ok (a, e1) => .ok ({ d with val := .num (a : ℚ) }, e1)
    | .seq =>
      match d.fn with
      | .shuffle _ =>
        .error (.attributeError "Random_seq object has no attribute _swap_crossover")
      | .choices _ _ =>
        .error (.attributeError "Random_seq object has no attribute _replace_crossover")
      | .sample s k =>
        match d.val.list with
        | .error er => .error er
        | .ok v =>
          match other.val.list with
          | .error er => .error er
          | .ok ov =>
            match swapReplaceCrossover v ov s true true e with
            | .error er => .error er
            | .ok ((res, pop1), e1) =>
              .ok ({ fn := .sample pop1 k, val := .lst res }, e1)
      | _ => .error (.typeError "sequence kind expected")
  else d.sampleD e

/-- Bounded retry loop of `Random_int.mutation`: up to the given fuel, draw a
direction, step and repair, and stop as soon as the value changed; the value
of the last attempt is kept otherwise. -/
def intMutLoop (mn mx st : ℤ) (v : ℚ) : ℕ → Entropy → Except PyErr (ℚ × Entropy)
  | 0, e => .ok (v, e)
  | k + 1, e =>
    match drawChoice [(-1 : ℤ), 1] e with
    | .error er => .error er
    | .ok (s, e1) =>
      match intRepairVal mn mx st (v + s * st) with
      | .error er => .error er
      | .ok rv =>
        if rv ≠ v then .ok (rv, e1) else intMutLoop mn mx st v k e1

/-- Kind-dispatched mutation (`Random_real.mutation`, `Random_int.mutation`,
`Random_cat.mutation`, `Random_seq.mutation`): builds the offspring from a
copy of the parent; the parent is only read. -/
def Dist.mutationD (d : Dist) (e : Entropy) : Except PyErr (Dist × Entropy) :=
  match d.fn.kind with
  | .real =>
    let mp := d.fn.realParams
    match d.val.q with
    | .error er => .error er
    | .ok v =>
      let g := drawGauss 0 (1 / 10 * mp.2.2) e
      .ok ({ d with val := .num (realRepairVal mp.1 mp.2.1 (v + g.1)) }, g.2)
  | .int =>
    let mp := d.fn.intParams
    match d.val.q with
    | .error er => .error er
    | .ok v =>
      match intMutLoop mp.1 mp.2.1 mp.2.2 v 10 e with
      | .error er => .error er
      | .ok (rv, e1) => .ok ({ d with val := .num rv }, e1)
  | .cat =>
    let s := d.fn.catSeq
    if 2 ≤ s.dedup.length then
      match drawChoice (s.filter (fun a => decide (PVal.ofAtom a ≠ d.val))) e with
      | .error er => .error er
      | .ok (a, e1) => .ok ({ d with val := .num (a : ℚ) }, e1)
    else .ok (d, e)
  | .seq =>
    match d.val.list with
    | .error er => .error er
    | .ok v =>
      match swapReplaceMutation v (replacePool d.fn v) e with
      | .error er => .error er
      | .ok (mv, e1) => .ok ({ d with val := .lst mv }, e1)

/-- Mutation with the explicit post-state of its argument. The source never
writes to the parent (it only copies and reads it, and the sequence mutation
only reads its pool), so the post-state is the argument itself. -/
def Dist.mutationFull (d : Dist) (e : Entropy) :
    Except PyErr ((Dist × Dist) × Entropy) :=
  match d.mutationD e with
  | .error er => .error er
  | .ok (off, e1) => .ok ((off, d), e1)

/-- Kind-dispatched crossover with explicit post-states of both arguments
(`Dist.crossover` base fallback, `Random_real.crossover`,
`Random_int.crossover`, `Random_seq.crossover`). The only in-place write
reachable from an argument in the source is the exclusive replacement pool of
the sequence pass; that pool is the backing sequence object itself exactly for
the choices sub-variant, and the shallow-copied offspring shares it, which the
post-states record. -/
def Dist.crossoverFull (d o : Dist) (e : Entropy) :
    Except PyErr ((Dist × Dist × Dist) × Entropy) :=
  if d.fn.fname = o.fn.fname ∧ d.fn.kind ≠ Kind.cat then
    match d.fn.kind with
    | .real =>
      match d.val.q with
      | .error er => .error er
      | .ok v =>
        match o.val.q with
        | .error er => .error er
        | .ok ov =>
          let p := drawUniform v ov e
          .ok (({ d with val := .num p.1 }, d, o), p.2)
    | .int =>
      match d.val.q with
      | .error er => .error er
      | .ok v =>
        match o.val.q with
        | .error er => .error er
        | .ok ov =>
          match toIntQ v with
          | .error er => .error er
          | .ok vi =>
            match toIntQ ov with
            | .error er => .error er
            | .ok ovi =>
              match drawRandint (min vi ovi) (max vi ovi) e with
              | .error er => .error er
              | .ok (nv, e1) => .ok (({ d with val := .num (nv : ℚ) }, d, o), e1)
    | .seq =>
      match d.val.list with
      | .error er => .error er
      | .ok v =>
        match o.val.list with
        | .error er => .error er
        | .ok ov =>
          match swapReplaceCrossover v ov (replacePool d.fn v)
              (replaceWithRepl d.fn) false e with
          | .error er => .error er
          | .ok ((res, pop1), e1) =>
            match d.fn with
            | .choices _ k =>
              .ok (({ fn := .choices pop1 k, val := .lst res },
                { d with fn := .choices pop1 k }, o), e1)
            | _ => .ok (({ d with val := .lst res }, d, o), e1)
    | .cat =>
      match drawChoice [d, o] e with
      | .error er => .error er
      | .ok (c, e1) => .ok ((c, d, o), e1)
  else
    match drawChoice [d, o] e with
    | .error er => .error er
    | .ok (c, e1) => .ok ((c, d, o), e1)

/-- Kind-dispatched three-parent convex crossover with explicit post-states
(`Dist.convex_crossover` base fallback, and the overrides in
`distributions.py`; the sequence override runs the swap-or-replace pass twice,
recomputing the pool from the first parent in between, as
`Random_seq.convex_crossover` does via two `_replace_from()` calls). -/
def Dist.convexCrossoverFull (d o1 o2 : Dist) (e : Entropy) :
    Except PyErr ((Dist × Dist × Dist × Dist) × Entropy) :=
  if (d.fn.fname = o1.fn.fname ∧ d.fn.fname = o2.fn.fname) ∧ d.fn.kind ≠ Kind.cat then
    match d.fn.kind with
    | .real =>
      match d.val.q with
      | .error er => .error er
      | .ok v =>
        match o1.val.q with
        | .error er => .error er
        | .ok ov1 =>
          match o2.val.q with
          | .error er => .error er
          | .ok ov2 =>
            let p := drawUniform (min v (min ov1 ov2)) (max v (max ov1 ov2)) e
            .ok (({ d with val := .num p.1 }, d, o1, o2), p.2)
    | .int =>
      match d.val.q with
      | .error er => .error er
      | .ok v =>
        match o1.val.q with
        | .error er => .error er
        | .ok ov1 =>
          match o2.val.q with
          | .error er => .error er
          | .ok ov2 =>
            match toIntQ v with
            | .error er => .error er
            | .ok vi =>
              match toIntQ ov1 with
              | .error er => .error er
              | .ok vi1 =>
                match toIntQ ov2 with
                | .error er => .error er
                | .ok vi2 =>
                  match drawRandint (min vi (min vi1 vi2)) (max vi (max vi1 vi2)) e with
                  | .error er => .error er
                  | .ok (nv, e1) =>
                    .ok (({ d with val := .num (nv : ℚ) }, d, o1, o2), e1)
    | .seq =>
      match d.val.list with
      | .error er => .error er
      | .ok v =>
        match o1.val.list with
        | .error er => .error er
        | .ok ov1 =>
          match o2.val.list with
          | .error er => .error er
          | .ok ov2 =>
            match swapReplaceCrossover v ov1 (replacePool d.fn v)
                (replaceWithRepl d.fn) false e with
            | .error er => .error er
            | .ok ((res1, pop1), e1) =>
              match d.fn with
              | .choices _ k =>
                match swapReplaceCrossover res1 ov2 pop1 true false e1 with
                | .error er => .error er
                | .ok ((res2, pop2), e2) =>
                  .ok (({ fn := .choices pop2 k, val := .lst res2 },
                    { d with fn := .choices pop2 k }, o1, o2), e2)
              | _ =>
                match swapReplaceCrossover res1 ov2 (replacePool d.fn v)
                    (replaceWithRepl d.fn) false e1 with
                | .error er => .error er
                | .ok ((res2, _), e2) =>
                  .ok (({ d with val := .lst res2 }, d, o1, o2), e2)
    | .cat =>
      match drawChoice [d, o1, o2] e with
      | .error er => .error er
      | .ok (c, e1) => .ok ((c, d, o1, o2), e1)
  else
    match drawChoice [d, o1, o2] e with
    | .error er => .error er
    | .ok (c, e1) => .ok ((c, d, o1, o2), e1)

/-- Result of a per-entry distance: a number, or the raw Python 3-tuple that
`Random_seq.distance` returns for the sample sub-variant. -/
inductive DRes where
  | num (q : ℚ)
  | tup (t s r : ℕ)
deriving DecidableEq

/-- Kind-dispatched distance with explicit post-states (`Dist.distance` base
fallback and the overrides; every path only reads its arguments). For the
sample sub-variant the source returns the 3-tuple of
`_swap_replace_distance` unchanged. -/
def Dist.distanceFull (d o : Dist) : Except PyErr (DRes × Dist × Dist) :=
  if d.fn.fname = o.fn.fname ∧ d.fn.kind ≠ Kind.cat then
    match d.fn.kind with
    | .real =>
      match d.val.q with
      | .error er => .error er
      | .ok v =>
        match o.val.q with
        | .error er => .error er
        | .ok ov =>
          if d.fn.realParams.2.2 = 0 then .error .zeroDivisionError
          else .ok (.num (min 1 (|v - ov| / d.fn.realParams.2.2)), d, o)
    | .int =>
      match d.val.q with
      | .error er => .error er
      | .ok v =>
        match o.val.q with
        | .error er => .error er
        | .ok ov =>
          if d.fn.intParams.2.1 - d.fn.intParams.1 = 0 then .error .zeroDivisionError
          else .ok (.num (min 1 (|v - ov| /
            ((d.fn.intParams.2.1 - d.fn.intParams.1 : ℤ) : ℚ))), d, o)
    | .seq =>
      match d.val.list with
      | .error er => .error er
      | .ok v =>
        match o.val.list with
        | .error er => .error er
        | .ok ov =>
          match d.fn with
          | .shuffle _ => .ok (.num (swapDistance v ov), d, o)
          | .sample s _ =>
            let t := swapReplaceDistance v ov s
            .ok (.tup t.1 t.2.1 t.2.2, d, o)
          | .choices s _ => .ok (.num (replaceDistance v ov s), d, o)
          | _ => .error (.typeError "sequence kind expected")
    | .cat => .ok (.num (if d = o then 0 else 1), d, o)
  else .ok (.num (if d = o then 0 else 1), d, o)

/-- Trace: the genotype, an insertion-ordered name-to-distribution dictionary
(a Python dict in the source). -/
abbrev Trace := List (String × Dist)

/-- Keys of a trace, in insertion order. -/
def names (t : Trace) : List String := t.map Prod.fst

/-- Dictionary membership test for a name. -/
def hasName (t : Trace) (n : String) : Bool := t.any (fun p => p.1 = n)

/-- Dictionary lookup: the first entry with the given name. -/
def lookup (t : Trace) (n : String) : Option Dist :=
  match t with
  | [] => none
  | p :: r => if p.1 = n then some p.2 else lookup r n

/-- Dictionary write `t[n] = d`: overwrite in place when the key exists,
append otherwise, as a Python dict does. -/
def dictInsert (t : Trace) (n : String) (d : Dist) : Trace :=
  if hasName t n then t.map (fun p => if p.1 = n then (n, d) else p)
  else t ++ [(n, d)]

/-- Dictionary union `t1 | t2`: left keys in order with right values taking
precedence, then the right-only keys. -/
def dictUnion (t1 t2 : Trace) : Trace :=
  t1.map (fun p => (p.1, (lookup t2 p.1).getD p.2)) ++
    t2.filter (fun p => ¬ hasName t1 p.1)

/-- Placeholder distribution for total dictionary reads that the source
guarantees can never miss. -/
def dummyDist : Dist := { fn := .random, val := .vnone }

/-- Resolution step of `Tracer.sample` for an active tracer: reuse the
recorded value when the input trace holds an entry of identical function name
and arguments, repair from it when it differs, and sample fresh when the name
is absent. -/
def resolve (inT : Trace) (n : String) (d : Dist) (e : Entropy) :
    Except PyErr (Dist × Entropy) :=
  match lookup inT n with
  | some td =>
    if td.fn = d.fn then .ok ({ d with val := td.val }, e)
    else d.repairD td e
  | none => d.sampleD e

/-- Active-tracer `Tracer.sample`: in debug mode a name already present in
the output trace is a fatal `ValueError`; otherwise the distribution is
resolved against the input trace, recorded in the output trace under the
name, and its value returned. -/
def traceSample (dbg : Bool) (inT outT : Trace) (n : String) (d : Dist)
    (e : Entropy) : Except PyErr (PVal × Trace × Entropy) :=
  if dbg ∧ hasName outT n then
    .error (.valueError "Name in trace is not unique")
  else
    match resolve inT n d e with
    | .error er => .error er
    | .ok (d1, e1) => .ok (d1.val, dictInsert outT n d1, e1)

/-- Generator as a free monad over named sampling calls: the continuation
receives exactly the value returned by `Tracer.sample`, so control flow
depends only on the values returned by sampling. Each call site constructs a
fresh distribution with value `None`, as the traceable wrappers in
`traceables.py` do. -/
inductive Gen (ρ : Type) where
  | ret (p : ρ)
  | sample (name : String) (fn : RFun) (k : PVal → Gen ρ)

/-- Execution of a generator under an active tracer: each sampling call goes
through `traceSample` against the fixed input trace, accumulating the output
trace. -/
def runGen (dbg : Bool) (inT : Trace) {ρ : Type} :
    Gen ρ → Trace → Entropy → Except PyErr (ρ × Trace × Entropy)
  | .ret p, outT, e => .ok (p, outT, e)
  | .sample n fn k, outT, e =>
    match traceSample dbg inT outT n { fn := fn, val := .vnone } e with
    | .error er => .error er
    | .ok (v, outT1, e1) => runGen dbg inT (k v) outT1 e1

/-- Record/replay entry point `Tracer.play`: run the generator against the
given input trace with a fresh empty output trace, and return the phenotype
with the collected output trace. -/
def play (dbg : Bool) {ρ : Type} (g : Gen ρ) (t : Trace) (e : Entropy) :
    Except PyErr ((ρ × Trace) × Entropy) :=
  match runGen dbg t g [] e with
  | .error er => .error er
  | .ok (p, outT, e1) => .ok ((p, outT), e1)

/-- Solution: phenotype paired with genotype (`Sol` in
`trace_operators.py`). -/
structure Sol (ρ : Type) where
  pheno : ρ
  geno : Trace

/-- Replay-and-repair (`Op.fix_ind`): replay a genotype through the generator
and pack the result as a solution. -/
def fixInd (dbg : Bool) {ρ : Type} (g : Gen ρ) (geno : Trace) (e : Entropy) :
    Except PyErr (Sol ρ × Entropy) :=
  match play dbg g geno e with
  | .error er => .error er
  | .ok ((p, t), e1) => .ok ({ pheno := p, geno := t }, e1)

/-- Alignment of genotypes (`Op._align_genotypes`): the names of the first
genotype that occur in all the others, in the first genotype's insertion
order; in debug mode every other genotype must expose the common names in
the same relative order, else a fatal assertion fires. -/
def alignGenotypes (dbg : Bool) (gs : List Trace) : Except PyErr (List String) :=
  match gs with
  | [] => .error (.indexError "list index out of range")
  | g1 :: rest =>
    let al := (names g1).filter (fun n => rest.all (fun g => hasName g n))
    if dbg ∧ ¬ rest.all (fun g => (names g).filter (fun n => al.contains n) = al)
    then .error (.assertionError "PTO: common keys in different orders!")
    else .ok al

/-- Per-name crossover pass of `Op.crossover_uniform_ind`: walk the
alignment, crossing the entries from the current (post-state) parent
genotypes, accumulating the recombined entries and both parents' entry
post-states. -/
def crossEntries : List String → Trace → Trace → Trace → Entropy →
    Except PyErr ((Trace × Trace × Trace) × Entropy)
  | [], acc, g1a, g2a, e => .ok ((acc, g1a, g2a), e)
  | n :: ns, acc, g1a, g2a, e =>
    match Dist.crossoverFull ((lookup g1a n).getD dummyDist)
        ((lookup g2a n).getD dummyDist) e with
    | .error er => .error er
    | .ok ((off, d1a, d2a), e1) =>
      crossEntries ns (acc ++ [(n, off)]) (dictInsert g1a n d1a)
        (dictInsert g2a n d2a) e1

/-- Genotype assembled by `Op.crossover_uniform_ind` before `fix_ind`: the
dictionary union of both parents overwritten on the alignment by the
per-entry crossover results; also returns the parents' genotype
post-states. -/
def crossoverUniformMerge (dbg : Bool) (g1 g2 : Trace) (e : Entropy) :
    Except PyErr ((Trace × Trace × Trace) × Entropy) :=
  match alignGenotypes dbg [g1, g2] with
  | .error er => .error er
  | .ok al =>
    match crossEntries al [] g1 g2 e with
    | .error er => .error er
    | .ok ((newAlign, g1a, g2a), e1) =>
      .ok ((dictUnion (dictUnion g1a g2a) newAlign, g1a, g2a), e1)

/-- Uniform crossover (`Op.crossover_uniform_ind`) with explicit post-states
of both parents' genotypes: merge, then replay through the generator. -/
def crossoverUniformIndFull (dbg : Bool) {ρ : Type} (g : Gen ρ)
    (s1 s2 : Sol ρ) (e : Entropy) :
    Except PyErr ((Sol ρ × Trace × Trace) × Entropy) :=
  match crossoverUniformMerge dbg s1.geno s2.geno e with
  | .error er => .error er
  | .ok ((merged, g1a, g2a), e1) =>
    match fixInd dbg g merged e1 with
    | .error er => .error er
    | .ok (child, e2) => .ok ((child, g1a, g2a), e2)

/-- Uniform crossover, result only. -/
def crossoverUniformInd (dbg : Bool) {ρ : Type} (g : Gen ρ) (s1 s2 : Sol ρ)
    (e : Entropy) : Except PyErr (Sol ρ × Entropy) :=
  match crossoverUniformIndFull dbg g s1 s2 e with
  | .error er => .error er
  | .ok ((child, _, _), e1) => .ok (child, e1)

/-- Per-name convex crossover pass of `Op.convex_crossover_ind`. -/
def convexEntries : List String → Trace → Trace → Trace → Trace → Entropy →
    Except PyErr ((Trace × Trace × Trace × Trace) × Entropy)
  | [], acc, g1a, g2a, g3a, e => .ok ((acc, g1a, g2a, g3a), e)
  | n :: ns, acc, g1a, g2a, g3a, e =>
    match Dist.convexCrossoverFull ((lookup g1a n).getD dummyDist)
        ((lookup g2a n).getD dummyDist) ((lookup g3a n).getD dummyDist) e with
    | .error er => .error er
    | .ok ((off, d1a, d2a, d3a), e1) =>
      convexEntries ns (acc ++ [(n, off)]) (dictInsert g1a n d1a)
        (dictInsert g2a n d2a) (dictInsert g3a n d3a) e1

/-- Three-parent convex crossover (`Op.convex_crossover_ind`) with explicit
post-states of the parents' genotypes. -/
def convexCrossoverIndFull (dbg : Bool) {ρ : Type} (g : Gen ρ)
    (s1 s2 s3 : Sol ρ) (e : Entropy) :
    Except PyErr ((Sol ρ × Trace × Trace × Trace) × Entropy) :=
  match alignGenotypes dbg [s1.geno, s2.geno, s3.geno] with
  | .error er => .error er
  | .ok al =>
    match convexEntries al [] s1.geno s2.geno s3.geno e with
    | .error er => .error er
    | .ok ((newAlign, g1a, g2a, g3a), e1) =>
      match fixInd dbg g
          (dictUnion (dictUnion (dictUnion g1a g2a) g3a) newAlign) e1 with
      | .error er => .error er
      | .ok (child, e2) => .ok ((child, g1a, g2a, g3a), e2)

/-- Point mutation (`Op.mutate_point_ind`) with the explicit post-state of
the parent's genotype: copy the genotype, mutate one randomly chosen entry,
replay. The parent's entries are shared into the copy, so the parent
post-state replaces the chosen entry by the entry-level post-state. -/
def mutatePointIndFull (dbg : Bool) {ρ : Type} (g : Gen ρ) (s : Sol ρ)
    (e : Entropy) : Except PyErr ((Sol ρ × Trace) × Entropy) :=
  match drawChoice (names s.geno) e with
  | .error er => .error er
  | .ok (n, e1) =>
    match Dist.mutationFull ((lookup s.geno n).getD dummyDist) e1 with
    | .error er => .error er
    | .ok ((off, dA), e2) =>
      match fixInd dbg g (dictInsert s.geno n off) e2 with
      | .error er => .error er
      | .ok (child, e3) => .ok ((child, dictInsert s.geno n dA), e3)

/-- Point mutation, result only. -/
def mutatePointInd (dbg : Bool) {ρ : Type} (g : Gen ρ) (s : Sol ρ)
    (e : Entropy) : Except PyErr (Sol ρ × Entropy) :=
  match mutatePointIndFull dbg g s e with
  | .error er => .error er
  | .ok ((child, _), e1) => .ok (child, e1)

/-- Entry pass of `Op.mutate_position_wise_ind`: one uniform draw per entry,
mutating the entry when the draw is at most the probability; returns the new
genotype and the entry post-states. -/
def mutEntries (p : ℚ) : List (String × Dist) → Entropy →
    Except PyErr ((Trace × Trace) × Entropy)
  | [], e => .ok (([], []), e)
  | (n, d) :: rest, e =>
    let u := drawUnit e
    if u.1 ≤ p then
      match Dist.mutationFull d u.2 with
      | .error er => .error er
      | .ok ((off, dA), e2) =>
        match mutEntries p rest e2 with
        | .error er => .error er
        | .ok ((ng, pg), e3) => .ok (((n, off) :: ng, (n, dA) :: pg), e3)
    else
      match mutEntries p rest u.2 with
      | .error er => .error er
      | .ok ((ng, pg), e3) => .ok (((n, d) :: ng, (n, d) :: pg), e3)

/-- Position-wise mutation (`Op.mutate_position_wise_ind`) with the explicit
post-state of the parent's genotype; an empty genotype makes the mutation
probability 1/0, a Python `ZeroDivisionError`. -/
def mutatePositionWiseIndFull (dbg : Bool) {ρ : Type} (g : Gen ρ) (s : Sol ρ)
    (e : Entropy) : Except PyErr ((Sol ρ × Trace) × Entropy) :=
  if s.geno.length = 0 then .error .zeroDivisionError
  else
    match mutEntries (1 / (s.geno.length : ℚ)) s.geno e with
    | .error er => .error er
    | .ok ((ng, pg), e1) =>
      match fixInd dbg g ng e1 with
      | .error er => .error er
      | .ok (child, e2) => .ok ((child, pg), e2)

/-- Position-wise mutation, result only. -/
def mutatePositionWiseInd (dbg : Bool) {ρ : Type} (g : Gen ρ) (s : Sol ρ)
    (e : Entropy) : Except PyErr (Sol ρ × Entropy) :=
  match mutatePositionWiseIndFull dbg g s e with
  | .error er => .error er
  | .ok ((child, _), e1) => .ok (child, e1)

/-- Summation pass of `Op.distance_ind` over the common names (modelled in
the first genotype's order): Python `sum` adds each per-entry distance to an
int accumulator, so the 3-tuple returned by the sample sub-variant raises a
`TypeError`. -/
def distEntries : List String → Trace → Trace → ℚ →
    Except PyErr (ℚ × Trace × Trace)
  | [], g1a, g2a, acc => .ok (acc, g1a, g2a)
  | n :: ns, g1a, g2a, acc =>
    match Dist.distanceFull ((lookup g1a n).getD dummyDist)
        ((lookup g2a n).getD dummyDist) with
    | .error er => .error er
    | .ok (.num q, d1a, d2a) =>
      distEntries ns (dictInsert g1a n d1a) (dictInsert g2a n d2a) (acc + q)
    | .ok (.tup _ _ _, _, _) =>
      .error (.typeError "unsupported operand types for +: int and tuple")

/-- Whole-genotype distance (`Op.distance_ind`) with explicit post-states:
sum of per-entry distances over the common names plus the size of the
symmetric difference of the name sets. -/
def distanceIndFull {ρ : Type} (s1 s2 : Sol ρ) :
    Except PyErr (ℚ × Trace × Trace) :=
  let common := (names s1.geno).filter (fun n => hasName s2.geno n)
  match distEntries common s1.geno s2.geno 0 with
  | .error er => .error er
  | .ok (q, g1a, g2a) =>
    let sd := ((names s1.geno).filter (fun n => ¬ hasName s2.geno n)).length +
      ((names s2.geno).filter (fun n => ¬ hasName s1.geno n)).length
    .ok (q + sd, g1a, g2a)

/-- Whole-genotype distance, result only. -/
def distanceInd {ρ : Type} (s1 s2 : Sol ρ) : Except PyErr ℚ :=
  match distanceIndFull s1 s2 with
  | .error er => .error er
  | .ok (q, _, _) => .ok q

/-- Object-store view of the base-class crossover
(`Dist.crossover`: `random.choice([self, other])`): on a store of allocated
distribution objects, the call returns one of the two argument references
themselves and allocates nothing. -/
def baseCrossoverObj (σ : List Dist) (a1 a2 : ℕ) (e : Entropy) :
    ℕ × List Dist × Entropy :=
  match drawChoice [a1, a2] e with
  | .ok (a, e1) => (a, σ, e1)
  | .error _ => (a1, σ, e)

/-- Example generator: a real draw then an int draw, returning the first. -/
def g0 : Gen PVal :=
  .sample "x" (.uniform 0 1) (fun v =>
    .sample "y" (.randint 0 3) (fun _ => .ret v))

/-- Trace recorded by running `g0` on the entropy [1/3, 1/2]. -/
def t0 : Trace :=
  [("x", { fn := .uniform 0 1, val := .num (1 / 3) }),
   ("y", { fn := .randint 0 3, val := .num 2 })]

/-- Example generator that uses the same name twice. -/
def gDup : Gen PVal :=
  .sample "a" (.uniform 0 1) (fun _ =>
    .sample "a" (.uniform 0 2) (fun v => .ret v))

/-- Example generator whose control flow branches on a sampled value: the
name "extra" is reached only when "b" sampled 1. -/
def gBranch : Gen PVal :=
  .sample "b" (.randint 0 1) (fun v =>
    if v = .num 1 then .sample "extra" (.uniform 0 1) (fun w => .ret w)
    else .ret v)

/-- Solution produced by `play true gBranch [] [1/2, 1/4]`: the branch with
the extra name. -/
def solA : Sol PVal :=
  { pheno := .num (1 / 4),
    geno := [("b", { fn := .randint 0 1, val := .num 1 }),
             ("extra", { fn := .uniform 0 1, val := .num (1 / 4) })] }

/-- Solution produced by `play true gBranch [] [0]`: the branch without the
extra name. -/
def solB : Sol PVal :=
  { pheno := .num 0,
    geno := [("b", { fn := .randint 0 1, val := .num 0 })] }

/-- Two categorical example distributions. -/
def catD1 : Dist := { fn := .choice [7, 8], val := .num 7 }

/-- Second categorical example distribution. -/
def catD2 : Dist := { fn := .choice [7, 8], val := .num 8 }

/-- Choices-kind example parents for the crossover witness. -/
def dChoA : Dist := { fn := .choices [1, 2, 3] 3, val := .lst [1, 1, 2] }

/-- Second choices-kind example parent. -/
def dChoB : Dist := { fn := .choices [1, 2, 3] 3, val := .lst [3, 2, 2] }

/-- Sample-sub-variant sequence distribution. -/
def dSamp : Dist := { fn := .sample [1, 2, 3] 2, val := .lst [1, 2] }

/-- Solution whose genotype holds one sample-sub-variant entry. -/
def xSamp : Sol PVal := { pheno := .vnone, geno := [("s", dSamp)] }

/-- Solution whose genotype holds one entry of each kind except the sample
sub-variant. -/
def xGood : Sol PVal :=
  { pheno := .vnone,
    geno := [("r", { fn := .uniform 0 2, val := .num (1 / 2) }),
             ("i", { fn := .randint 0 5, val := .num 3 }),
             ("c", { fn := .choice [7, 8], val := .num 7 }),
             ("sh", { fn := .shuffle [1, 2, 3], val := .lst [3, 1, 2] }),
             ("ch", { fn := .choices [4, 5] 2, val := .lst [5, 5] })]}

/-- Result of the merge step of uniform crossover on the example parents
`solA` and `solB` with entropy [0]. -/
def rC6m : (Trace × Trace × Trace) × Entropy :=
  (([("b", { fn := .randint 0 1, val := .num 0 }),
     ("extra", { fn := .uniform 0 1, val := .num (1 / 4) })],
    solA.geno, solB.geno), [])

/-- Integer example parent on the step-2 grid of randrange(0, 11, 2). -/
def dC7 : Dist := { fn := .randrange 0 11 2, val := .num 4 }

/-- Second integer example parent on the same grid. -/
def oC7 : Dist := { fn := .randrange 0 11 2, val := .num 0 }

/-- Result of the integer crossover of the example parents on entropy
[3/10]. -/
def rC7 : (Dist × Dist × Dist) × Entropy :=
  (({ fn := .randrange 0 11 2, val := .num 1 }, dC7, oC7), [])

/-- Solution recorded by running `g0` on [1/3, 1/2]. -/
def solG0 : Sol PVal := { pheno := .num (1 / 3), geno := t0 }

/-- Result of point mutation of `solG0` on entropy [0, 7]: the mutation hits
name "x", pushes its value to 1, and the post-state of the parent genotype is
`t0` itself. -/
def rPoint : (Sol PVal × Trace) × Entropy :=
  (({ pheno := .num 1,
      geno := [("x", { fn := .uniform 0 1, val := .num 1 }),
               ("y", { fn := .randint 0 3, val := .num 2 })] }, t0), [])

/-! Helper lemmas about traces viewed as insertion-ordered dictionaries. -/

theorem names_append (t1 t2 : Trace) : names (t1 ++ t2) = names t1 ++ names t2 :=
  List.map_append _ _ _

theorem hasName_nil (n : String) : hasName [] n = false := rfl

theorem hasName_cons (p : String × Dist) (r : Trace) (n : String) :
    hasName (p :: r) n = (decide (p.1 = n) || hasName r n) := by
  simp [hasName]

theorem hasName_eq_isSome : ∀ (t : Trace) (n : String),
    hasName t n = (lookup t n).isSome := by
  intro t n
  induction t with
  | nil => rfl
  | cons p r ih =>
    by_cases hp : p.1 = n
    · simp [hasName_cons, lookup, hp]
    · simp [hasName_cons, lookup, hp, ih]

theorem lookup_some_of_hasName {t : Trace} {n : String}
    (h : hasName t n = true) : ∃ d, lookup t n = some d := by
  rw [hasName_eq_isSome] at h
  exact Option.isSome_iff_exists.mp h

theorem hasName_of_lookup {t : Trace} {n : String} {d : Dist}
    (h : lookup t n = some d) : hasName t n = true := by
  rw [hasName_eq_isSome, h]
  rfl

theorem hasName_iff {t : Trace} {n : String} : hasName t n = true ↔ n ∈ names t := by
  induction t with
  | nil => simp [hasName_nil, names]
  | cons p r ih =>
    rw [hasName_cons]
    simp only [names, List.map_cons, List.mem_cons, Bool.or_eq_true,
      decide_eq_true_eq]
    rw [ih]
    constructor
    · rintro (h | h)
      · exact Or.inl h.symm
      · exact Or.inr h
    · rintro (h | h)
      · exact Or.inl h.symm
      · exact Or.inr h

theorem hasName_congr {t1 t2 : Trace} (h : names t1 = names t2) (n : String) :
    hasName t1 n = hasName t2 n := by
  by_cases h1 : hasName t1 n = true
  · rw [h1, Eq.symm (hasName_iff.mpr (h ▸ hasName_iff.mp h1))]
  · have h2 : ¬ hasName t2 n = true := fun hc =>
      h1 (hasName_iff.mpr (h ▸ hasName_iff.mp hc))
    rw [Bool.not_eq_true] at h1 h2
    rw [h1, h2]

theorem hasName_cons_false {p : String × Dist} {r : Trace} {n : String}
    (h : hasName (p :: r) n = false) : p.1 ≠ n ∧ hasName r n = false := by
  rw [hasName_cons] at h
  constructor
  · intro hc
    simp [hc] at h
  · by_cases hb : hasName r n = true
    · simp [hb] at h
    · rwa [Bool.not_eq_true] at hb

theorem lookup_append_left {t1 t2 : Trace} {n : String}
    (h : hasName t1 n = false) : lookup (t1 ++ t2) n = lookup t2 n := by
  induction t1 with
  | nil => rfl
  | cons p r ih =>
    obtain ⟨h1, h2⟩ := hasName_cons_false h
    rw [List.cons_append]
    show (if p.1 = n then some p.2 else lookup (r ++ t2) n) = lookup t2 n
    rw [if_neg h1, ih h2]

theorem lookup_cons_self {r : Trace} {n : String} {d : Dist} :
    lookup ((n, d) :: r) n = some d := by simp [lookup]

theorem dictInsert_fresh {t : Trace} {n : String} {d : Dist}
    (h : hasName t n = false) : dictInsert t n d = t ++ [(n, d)] := by
  simp [dictInsert, h]

theorem names_dictInsert_of_hasName {t : Trace} {n : String} {d : Dist}
    (h : hasName t n = true) : names (dictInsert t n d) = names t := by
  simp only [dictInsert, h, if_true]
  simp only [names, List.map_map]
  apply List.map_congr_left
  intro p _
  by_cases hp : p.1 = n <;> simp [hp, Function.comp]

theorem dictInsert_self {t : Trace} {n : String} {d : Dist}
    (hnd : (names t).Nodup) (h : lookup t n = some d) : dictInsert t n d = t := by
  rw [dictInsert, if_pos (hasName_of_lookup h)]
  induction t with
  | nil => rfl
  | cons p r ih =>
    simp only [names, List.map_cons, List.nodup_cons] at hnd
    by_cases hp : p.1 = n
    · have hd : p.2 = d := by
        have := h
        rw [show lookup (p :: r) n = some p.2 by
          show (if p.1 = n then some p.2 else lookup r n) = some p.2
          rw [if_pos hp]] at this
        exact Option.some_inj.mp this
      have hr : ∀ q ∈ r, q.1 ≠ n := by
        intro q hq hc
        exact hnd.1 (hp ▸ hc ▸ List.mem_map_of_mem Prod.fst hq)
      have hmap : r.map (fun q => if q.1 = n then (n, d) else q) = r := by
        conv_rhs => rw [← List.map_id r]
        apply List.map_congr_left
        intro q hq
        simp [hr q hq]
      have hpd : p = (n, d) := by
        rw [← hp, ← hd]
      rw [List.map_cons, hmap, if_pos hp, ← hpd]
    · have hl : lookup r n = some d := by
        have := h
        rw [show lookup (p :: r) n = lookup r n by
          show (if p.1 = n then some p.2 else lookup r n) = lookup r n
          rw [if_neg hp]] at this
        exact this
      rw [List.map_cons, if_neg hp, ih hnd.2 hl]

theorem names_dictUnion (t1 t2 : Trace) :
    names (dictUnion t1 t2) =
    names t1 ++ names (t2.filter (fun p => ¬ hasName t1 p.1)) := by
  rw [dictUnion, names_append]
  congr 1
  simp only [names, List.map_map]
  apply List.map_congr_left
  intro p _
  rfl

theorem mem_names_dictUnion {t1 t2 : Trace} {n : String} :
    n ∈ names (dictUnion t1 t2) ↔ n ∈ names t1 ∨ n ∈ names t2 := by
  rw [names_dictUnion, List.mem_append]
  constructor
  · rintro (h | h)
    · exact Or.inl h
    · right
      obtain ⟨p, hp, hpn⟩ := List.mem_map.mp h
      exact hpn ▸ List.mem_map_of_mem Prod.fst (List.mem_of_mem_filter hp)
  · rintro (h | h)
    · exact Or.inl h
    · by_cases h1 : n ∈ names t1
      · exact Or.inl h1
      · right
        obtain ⟨p, hp, hpn⟩ := List.mem_map.mp h
        rw [← hpn]
        refine List.mem_map_of_mem Prod.fst (List.mem_filter.mpr ⟨hp, ?_⟩)
        simp only [decide_eq_true_eq]
        intro hc
        exact h1 (hpn ▸ hasName_iff.mp hc)

/-! Helper lemmas about the tracer. -/

theorem resolve_nil (n : String) (d : Dist) (e : Entropy) :
    resolve [] n d e = d.sampleD e := rfl

theorem resolve_reuse {inT : Trace} {n : String} {td : Dist} (d : Dist)
    (e : Entropy) (h : lookup inT n = some td) (hfn : td.fn = d.fn) :
    resolve inT n d e = .ok ({ d with val := td.val }, e) := by
  rw [resolve, h]
  simp [hfn]

theorem traceSample_resolve_ok {dbg : Bool} {inT outT : Trace} {n : String}
    {d d1 : Dist} {e e2 : Entropy} (h : hasName outT n = false)
    (hr : resolve inT n d e = .ok (d1, e2)) :
    traceSample dbg inT outT n d e = .ok (d1.val, dictInsert outT n d1, e2) := by
  rw [traceSample, if_neg (by simp [h]), hr]

theorem traceSample_resolve_error {dbg : Bool} {inT outT : Trace} {n : String}
    {d : Dist} {e : Entropy} {er : PyErr} (h : hasName outT n = false)
    (hr : resolve inT n d e = .error er) :
    traceSample dbg inT outT n d e = .error er := by
  rw [traceSample, if_neg (by simp [h]), hr]

theorem traceSample_dup {inT outT : Trace} {n : String} {d : Dist}
    {e : Entropy} (h : hasName outT n = true) :
    traceSample true inT outT n d e =
      .error (.valueError "Name in trace is not unique") := by
  rw [traceSample, if_pos ⟨rfl, h⟩]

theorem runGen_extends {ρ : Type} (g : Gen ρ) :
    ∀ (inT acc : Trace) (e : Entropy) (p : ρ) (T : Trace) (e1 : Entropy),
    runGen true inT g acc e = .ok (p, T, e1) → ∃ rest, T = acc ++ rest := by
  induction g with
  | ret q =>
    intro inT acc e p T e1 h
    simp only [runGen, Except.ok.injEq, Prod.mk.injEq] at h
    exact ⟨[], by simp [← h.2.1]⟩
  | sample n fn k ih =>
    intro inT acc e p T e1 h
    simp only [runGen] at h
    by_cases hdup : hasName acc n = true
    · rw [traceSample_dup hdup] at h
      simp at h
    · rw [Bool.not_eq_true] at hdup
      cases hres : resolve inT n { fn := fn, val := .vnone } e with
      | error er =>
        rw [traceSample_resolve_error hdup hres] at h
        simp at h
      | ok pr =>
        obtain ⟨d1, e2⟩ := pr
        rw [traceSample_resolve_ok hdup hres] at h
        obtain ⟨rest, hr⟩ := ih d1.val inT (dictInsert acc n d1) e2 p T e1 h
        rw [dictInsert_fresh hdup] at hr
        exact ⟨(n, d1) :: rest, by rw [hr, List.append_assoc]; rfl⟩

theorem runGen_replay {ρ : Type} (g : Gen ρ) :
    ∀ (acc acc2 rest : Trace) (e e1 e2 : Entropy) (p : ρ),
    runGen true [] g acc e = .ok (p, acc ++ rest, e1) →
    names acc2 = names acc →
    runGen true (acc ++ rest) g acc2 e2 = .ok (p, acc2 ++ rest, e2) := by
  induction g with
  | ret q =>
    intro acc acc2 rest e e1 e2 p h hn
    simp only [runGen, Except.ok.injEq, Prod.mk.injEq] at h ⊢
    obtain ⟨hq, hT, _⟩ := h
    have hrest : rest = [] := by
      have := congrArg List.length hT
      simp at this
      exact this
    exact ⟨hq, by simp [hrest], trivial⟩
  | sample n fn k ih =>
    intro acc acc2 rest e e1 e2 p h hn
    simp only [runGen] at h ⊢
    by_cases hdup : hasName acc n = true
    · rw [traceSample_dup hdup] at h
      simp at h
    · rw [Bool.not_eq_true] at hdup
      have hdup2 : hasName acc2 n = false := by
        rw [hasName_congr hn n]
        exact hdup
      cases hres : resolve [] n { fn := fn, val := .vnone } e with
      | error er =>
        rw [traceSample_resolve_error hdup hres] at h
        simp at h
      | ok pr =>
        obtain ⟨d1, e3⟩ := pr
        rw [traceSample_resolve_ok hdup hres] at h
        -- the fresh sample keeps the node's function
        have hfn : d1.fn = fn := by
          rw [resolve_nil] at hres
          unfold Dist.sampleD at hres
          cases hs : RFun.sampleVal fn e with
          | error er => rw [hs] at hres; simp at hres
          | ok pv =>
            rw [hs] at hres
            obtain ⟨v, e4⟩ := pv
            simp only [Except.ok.injEq, Prod.mk.injEq] at hres
            rw [← hres.1]
        obtain ⟨rest2, hr2⟩ :=
          runGen_extends (k d1.val) [] (dictInsert acc n d1) e3 p (acc ++ rest) e1 h
        rw [dictInsert_fresh hdup] at h hr2
        have hrest : rest = (n, d1) :: rest2 := by
          rw [List.append_assoc] at hr2
          exact List.append_cancel_left hr2
        subst hrest
        have hlook : lookup (acc ++ (n, d1) :: rest2) n = some d1 := by
          rw [lookup_append_left hdup]
          exact lookup_cons_self
        rw [traceSample_resolve_ok hdup2
          (resolve_reuse { fn := fn, val := .vnone } e2 hlook hfn)]
        have hd1 : { fn := fn, val := d1.val : Dist } = d1 := by
          cases d1
          simp at hfn
          rw [hfn]
        rw [hd1, dictInsert_fresh hdup2]
        have := ih d1.val (acc ++ [(n, d1)]) (acc2 ++ [(n, d1)]) rest2 e3 e1 e2 p
          (by rw [List.append_assoc]; exact h)
          (by rw [names_append, names_append, hn])
        rw [List.append_assoc, List.append_assoc] at this
        exact this

/-- C1: Round trip. For every generator whose control flow depends only on
the values returned by its sampling calls (every `Gen`), if a run on the
empty input trace returns phenotype p and trace t, then an immediate replay
of the same generator on input trace t returns the same phenotype p and an
output trace equal to t entry for entry (same function name, same arguments,
same value — our traces are equal as dictionaries), consuming no
randomness. -/
theorem play_round_trip {ρ : Type} (g : Gen ρ) (p : ρ) (t : Trace)
    (e e1 e2 : Entropy) (h : play true g [] e = .ok ((p, t), e1)) :
    play true g t e2 = .ok ((p, t), e2) := by
  unfold play at h ⊢
  cases hr : runGen true [] g [] e with
  | error er => rw [hr] at h; simp at h
  | ok trip =>
    obtain ⟨p0, T, e3⟩ := trip
    rw [hr] at h
    simp only [Except.ok.injEq, Prod.mk.injEq] at h
    obtain ⟨⟨hp, hT⟩, he⟩ := h
    have hrep := runGen_replay g [] [] T e e3 e2 p0 (by simpa using hr) rfl
    simp only [List.nil_append] at hrep
    rw [← hp, ← hT, hrep]

/-- C1 witness: the round trip on the concrete generator `g0` with the
concrete entropy [1/3, 1/2]. -/
theorem play_round_trip_witness :
    play true g0 t0 [] = .ok ((PVal.num (1 / 3), t0), []) :=
  play_round_trip g0 (PVal.num (1 / 3)) t0 [1 / 3, 1 / 2] [] [] (by
    simp [play, runGen, traceSample, resolve, hasName, lookup, dictInsert,
      Dist.sampleD, RFun.sampleVal, drawUniform, drawUnit, nextR, drawRandint,
      g0, t0]
    norm_num [Int.fract])

/-- C2 counterexample: the claim as stated says a duplicate name during an
active replay is always fatal and never silently continues or overwrites.
The duplicate check in `Tracer.sample` sits under `if __debug__:`, so with
the check compiled out (python -O, modelled by the debug flag false) the
replay of the duplicate-name generator `gDup` completes successfully and the
output trace holds the second distribution under the name "a", the first
entry silently overwritten. -/
theorem duplicate_name_optimized_mode_overwrites :
    play false gDup [] [1 / 3, 1 / 2] =
      .ok ((PVal.num 1, [("a", { fn := .uniform 0 2, val := .num 1 })]), []) := by
  simp [play, runGen, traceSample, resolve, hasName, lookup, dictInsert,
    Dist.sampleD, RFun.sampleVal, drawUniform, drawUnit, nextR, gDup]
  norm_num [Int.fract]

/-- C2 amended: in debug mode (Python's default), a sampling call whose name
is already recorded in the current activation's output trace raises the
fatal `ValueError` and the replay aborts at that call — no continuation of
the generator runs and nothing is recorded. -/
theorem duplicate_name_fatal_in_debug (inT outT : Trace) (n : String)
    (d : Dist) (e : Entropy) (h : hasName outT n = true) :
    traceSample true inT outT n d e =
      .error (.valueError "Name in trace is not unique") ∧
    ∀ {ρ : Type} (fn : RFun) (k : PVal → Gen ρ),
      runGen true inT (Gen.sample n fn k) outT e =
        .error (.valueError "Name in trace is not unique") := by
  refine ⟨traceSample_dup h, ?_⟩
  intro ρ fn k
  simp only [runGen, traceSample_dup h]

/-- C2 amended witness: the duplicate-name error at a concrete output
trace. -/
theorem duplicate_name_fatal_in_debug_witness :
    traceSample true [] [("a", dummyDist)] "a" dummyDist [] =
      .error (.valueError "Name in trace is not unique") :=
  (duplicate_name_fatal_in_debug [] [("a", dummyDist)] "a" dummyDist []
    (by decide)).1

/-! Helper lemmas about the repair dispatch. -/

theorem repairD_diff_name (d o : Dist) (e : Entropy)
    (h : d.fn.fname ≠ o.fn.fname) : Dist.repairD d o e = d.sampleD e := by
  rw [Dist.repairD, if_neg h]

theorem repairD_uniform_same (a b oa ob ov : ℚ) (dv : PVal) (e : Entropy)
    (h : ob - oa ≠ 0) :
    Dist.repairD { fn := .uniform a b, val := dv }
      { fn := .uniform oa ob, val := .num ov } e =
    .ok ({ fn := .uniform a b,
           val := .num (realRepairVal a b ((ov - oa) / (ob - oa) * (b - a) + a)) },
      e) := by
  simp [Dist.repairD, RFun.fname, RFun.kind, RFun.realParams, PVal.q, h]

theorem repairD_randint_same (a b oa ob : ℤ) (ov : ℚ) (dv : PVal) (e : Entropy) :
    Dist.repairD { fn := .randint a b, val := dv }
      { fn := .randint oa ob, val := .num ov } e =
    .ok ({ fn := .randint a b,
           val := .num ((min (max a (a + pyRound (ov - oa))) b : ℤ) : ℚ) },
      e) := by
  simp only [Dist.repairD, RFun.fname, RFun.kind, RFun.intParams, PVal.q,
    intRepairVal]
  norm_num

theorem repairD_choice_reuse (s os : List Atom) (dv : PVal) (x : Atom)
    (e : Entropy) (h : x ∈ s) :
    Dist.repairD { fn := .choice s, val := dv }
      { fn := .choice os, val := PVal.ofAtom x } e =
    .ok ({ fn := .choice s, val := PVal.ofAtom x }, e) := by
  have hany : s.any (fun a => decide (PVal.ofAtom a = PVal.ofAtom x)) = true := by
    rw [List.any_eq_true]
    exact ⟨x, h, by simp⟩
  simp [Dist.repairD, RFun.fname, RFun.kind, RFun.catSeq, hany]

/-- C4 counterexample: the claim as stated says repair falls back to a fresh
`sample()` whenever the recovered entry's parameters differ, even at equal
kind. On a real distribution with support [0,1] repaired from a same-kind
entry with support [-5,5] and value 5/2, the code instead adapts the value
(to 3/4, yielding a result different from a fresh sample on the same
randomness, which would give 1/3 and consume the draw). -/
theorem repair_same_kind_different_params_adapts :
    Dist.repairD { fn := .uniform 0 1, val := .vnone }
        { fn := .uniform (-5) 5, val := .num (5 / 2) } [1 / 3] =
      .ok ({ fn := .uniform 0 1, val := .num (3 / 4) }, [1 / 3]) ∧
    Dist.repairD { fn := .uniform 0 1, val := .vnone }
        { fn := .uniform (-5) 5, val := .num (5 / 2) } [1 / 3] ≠
      Dist.sampleD { fn := .uniform 0 1, val := .vnone } [1 / 3] := by
  constructor
  · rw [repairD_uniform_same 0 1 (-5) 5 (5 / 2) .vnone [1 / 3] (by norm_num)]
    norm_num [realRepairVal]
  · rw [repairD_uniform_same 0 1 (-5) 5 (5 / 2) .vnone [1 / 3] (by norm_num)]
    simp [Dist.sampleD, RFun.sampleVal, drawUniform, drawUnit, nextR]

/-- C4 amended: the repair dispatch condition is equality of the wrapped
function names only, not of the parameters. On a name mismatch every kind
falls back to a fresh `sample()`; on a name match the kind-specific
adaptation runs regardless of the parameters: reals rescale linearly and
clamp, integers rescale on the step and round-clamp, and categoricals reuse
the recovered value whenever it is a current candidate. -/
theorem repair_dispatch_on_function_name :
    (∀ (d o : Dist) (e : Entropy), d.fn.fname ≠ o.fn.fname →
      Dist.repairD d o e = d.sampleD e) ∧
    (∀ (a b oa ob ov : ℚ) (dv : PVal) (e : Entropy), ob - oa ≠ 0 →
      Dist.repairD { fn := .uniform a b, val := dv }
          { fn := .uniform oa ob, val := .num ov } e =
        .ok ({ fn := .uniform a b,
               val := .num (realRepairVal a b ((ov - oa) / (ob - oa) * (b - a) + a)) },
          e)) ∧
    (∀ (a b oa ob : ℤ) (ov : ℚ) (dv : PVal) (e : Entropy),
      Dist.repairD { fn := .randint a b, val := dv }
          { fn := .randint oa ob, val := .num ov } e =
        .ok ({ fn := .randint a b,
               val := .num ((min (max a (a + pyRound (ov - oa))) b : ℤ) : ℚ) },
          e)) ∧
    (∀ (s os : List Atom) (dv : PVal) (x : Atom) (e : Entropy), x ∈ s →
      Dist.repairD { fn := .choice s, val := dv }
          { fn := .choice os, val := PVal.ofAtom x } e =
        .ok ({ fn := .choice s, val := PVal.ofAtom x }, e)) :=
  ⟨repairD_diff_name, repairD_uniform_same, repairD_randint_same,
    repairD_choice_reuse⟩

/-- C4 amended witness: name-mismatch fallback to sample at a concrete pair,
and categorical value reuse at a concrete pair. -/
theorem repair_dispatch_on_function_name_witness :
    Dist.repairD { fn := .randint 0 10, val := .num 2 }
        { fn := .uniform 0 1, val := .num (1 / 2) } [1 / 4] =
      Dist.sampleD { fn := .randint 0 10, val := .num 2 } [1 / 4] ∧
    Dist.repairD { fn := .choice [1, 2, 3], val := .num 1 }
        { fn := .choice [9, 2], val := PVal.ofAtom 2 } [] =
      .ok ({ fn := .choice [1, 2, 3], val := PVal.ofAtom 2 }, []) :=
  ⟨repair_dispatch_on_function_name.1 _ _ _ (by decide),
    repair_dispatch_on_function_name.2.2.2 [1, 2, 3] [9, 2] (.num 1) 2 []
      (by decide)⟩

/-- C5: Real repair formula. For same-kind real distributions, repair sets
the value to (other.val - other.min) / other.range * range + min and then
clamps it into [min, max]; concretely, a distribution with support [0,1]
repaired from an entry with support [-5,5] and value 5/2 holds exactly
3/4. -/
theorem real_repair_formula :
    (∀ (a b oa ob ov : ℚ) (dv : PVal) (e : Entropy), ob - oa ≠ 0 →
      Dist.repairD { fn := .uniform a b, val := dv }
          { fn := .uniform oa ob, val := .num ov } e =
        .ok ({ fn := .uniform a b,
               val := .num (min (max a ((ov - oa) / (ob - oa) * (b - a) + a)) b) },
          e)) ∧
    Dist.repairD { fn := .uniform 0 1, val := .vnone }
        { fn := .uniform (-5) 5, val := .num (5 / 2) } [] =
      .ok ({ fn := .uniform 0 1, val := .num (3 / 4) }, []) := by
  constructor
  · intro a b oa ob ov dv e h
    rw [repairD_uniform_same a b oa ob ov dv e h]
    rfl
  · rw [repairD_uniform_same 0 1 (-5) 5 (5 / 2) .vnone [] (by norm_num)]
    norm_num [realRepairVal]

/-- C5 witness: the general formula applied at the concrete spec example. -/
theorem real_repair_formula_witness :
    Dist.repairD { fn := .uniform 0 1, val := .vnone }
        { fn := .uniform (-5) 5, val := .num (5 / 2) } [] =
      .ok ({ fn := .uniform 0 1,
             val := .num (min (max 0 ((5 / 2 - (-5)) / (5 - (-5)) * (1 - 0) + 0)) 1) },
        []) :=
  real_repair_formula.1 0 1 (-5) 5 (5 / 2) .vnone [] (by norm_num)

/-- C8: the claim states distance identity and non-negativity for genotypes
of every kind including all three sequence sub-variants, but
`Random_seq.distance` for the sample sub-variant returns the raw 3-tuple of
`_swap_replace_distance`, and `Op.distance_ind` sums per-entry distances into
an int accumulator, so `distance_ind(x, x)` on a genotype holding a
sample-kind entry raises `TypeError: unsupported operand types` instead of
returning 0. On the other kinds (real, int, categorical, shuffle, choices)
the identity does hold, as the third conjunct shows on a mixed genotype. -/
theorem distance_sample_variant_raises_type_error :
    distanceInd xSamp xSamp =
      .error (.typeError "unsupported operand types for +: int and tuple") ∧
    Dist.distanceFull dSamp dSamp = .ok (.tup 0 0 0, dSamp, dSamp) ∧
    distanceInd xGood xGood = .ok 0 := by
  refine ⟨?_, ?_, ?_⟩
  · simp [distanceInd, distanceIndFull, distEntries, Dist.distanceFull,
      xSamp, dSamp, names, hasName, lookup, dictInsert, RFun.fname, RFun.kind,
      PVal.list, swapReplaceDistance, List.range_succ, dummyDist]
  · simp [Dist.distanceFull, dSamp, RFun.fname, RFun.kind, PVal.list,
      swapReplaceDistance, List.range_succ]
  · simp [distanceInd, distanceIndFull, distEntries, Dist.distanceFull,
      xGood, names, hasName, lookup, dictInsert, RFun.fname, RFun.kind,
      PVal.q, PVal.list, RFun.realParams, RFun.intParams, swapDistance,
      replaceDistance, List.range_succ, dummyDist]

/-- C9: the claim states sequence repair completes for all three
sub-variants by mirroring the crossover pass. The source's
`Random_seq.repair` instead calls `self._swap_crossover` for shuffle and
`self._replace_crossover` for choices — methods that do not exist anywhere in
the repository — so a same-kind repair of a shuffle-kind or choices-kind
entry raises `AttributeError` at run time; only the sample sub-variant
reaches `_swap_replace_crossover` (and does so with the non-exclusive pool
default rather than the claimed exclusive one). -/
theorem seq_repair_raises_attribute_error :
    Dist.repairD { fn := .shuffle [1, 2, 3], val := .lst [2, 1, 3] }
        { fn := .shuffle [1, 2, 3], val := .lst [1, 2, 3] } [] =
      .error (.attributeError "Random_seq object has no attribute _swap_crossover") ∧
    Dist.repairD { fn := .choices [1, 2, 3] 2, val := .lst [2, 1] }
        { fn := .choices [1, 2, 3] 2, val := .lst [1, 2] } [] =
      .error (.attributeError "Random_seq object has no attribute _replace_crossover") := by
  constructor
  · simp [Dist.repairD, RFun.fname, RFun.kind]
  · simp [Dist.repairD, RFun.fname, RFun.kind]

/-- C10: the mutation operators are only defined on non-empty genotypes. On
a solution with an empty genotype, `mutate_point_ind` fails with the
`IndexError` of `random.choice` on the empty name list, and
`mutate_position_wise_ind` fails with the `ZeroDivisionError` of the
mutation probability 1/0; neither returns a solution. -/
theorem empty_genotype_mutation_fails {ρ : Type} (dbg : Bool) (g : Gen ρ)
    (s : Sol ρ) (e : Entropy) (h : s.geno = []) :
    mutatePointInd dbg g s e =
      .error (.indexError "Cannot choose from an empty sequence") ∧
    mutatePositionWiseInd dbg g s e = .error .zeroDivisionError := by
  constructor
  · simp [mutatePointInd, mutatePointIndFull, h, names, drawChoice]
  · simp [mutatePositionWiseInd, mutatePositionWiseIndFull, h]

/-- C10 witness: the failures at a concrete empty-genotype solution. -/
theorem empty_genotype_mutation_fails_witness :
    mutatePointInd true g0 { pheno := PVal.vnone, geno := [] } [] =
      .error (.indexError "Cannot choose from an empty sequence") ∧
    mutatePositionWiseInd true g0 { pheno := PVal.vnone, geno := [] } [] =
      .error .zeroDivisionError :=
  empty_genotype_mutation_fails true g0 { pheno := PVal.vnone, geno := [] }
    [] rfl

/-! Helper lemmas about genotype alignment and the crossover merge. -/

theorem alignGenotypes_pair_ok {dbg : Bool} {g1 g2 : Trace} {al : List String}
    (h : alignGenotypes dbg [g1, g2] = .ok al) :
    al = (names g1).filter (fun n => hasName g2 n) := by
  simp only [alignGenotypes] at h
  have hfil : (names g1).filter (fun n => [g2].all (fun g => hasName g n)) =
      (names g1).filter (fun n => hasName g2 n) :=
    List.filter_congr (fun n _ => by simp)
  split at h
  · exact absurd h (by simp)
  · simp only [Except.ok.injEq] at h
    rw [← h, hfil]

theorem crossEntries_names :
    ∀ (ns : List String) (acc g1a g2a : Trace) (e : Entropy)
      (r : (Trace × Trace × Trace) × Entropy),
    (∀ n ∈ ns, hasName g1a n = true ∧ hasName g2a n = true) →
    crossEntries ns acc g1a g2a e = .ok r →
    names r.1.1 = names acc ++ ns ∧ names r.1.2.1 = names g1a ∧
      names r.1.2.2 = names g2a := by
  intro ns
  induction ns with
  | nil =>
    intro acc g1a g2a e r hm h
    simp only [crossEntries, Except.ok.injEq] at h
    rw [← h]
    exact ⟨by simp, rfl, rfl⟩
  | cons n ns ih =>
    intro acc g1a g2a e r hm h
    simp only [crossEntries] at h
    cases hc : Dist.crossoverFull ((lookup g1a n).getD dummyDist)
        ((lookup g2a n).getD dummyDist) e with
    | error er => rw [hc] at h; simp at h
    | ok pr =>
      obtain ⟨⟨off, d1a, d2a⟩, e1⟩ := pr
      rw [hc] at h
      obtain ⟨h1, h2⟩ := hm n (List.mem_cons_self n ns)
      have hg1 : names (dictInsert g1a n d1a) = names g1a :=
        names_dictInsert_of_hasName h1
      have hg2 : names (dictInsert g2a n d2a) = names g2a :=
        names_dictInsert_of_hasName h2
      have hm2 : ∀ m ∈ ns, hasName (dictInsert g1a n d1a) m = true ∧
          hasName (dictInsert g2a n d2a) m = true := by
        intro m hmem
        obtain ⟨hma, hmb⟩ := hm m (List.mem_cons_of_mem n hmem)
        rw [hasName_congr hg1 m, hasName_congr hg2 m]
        exact ⟨hma, hmb⟩
      obtain ⟨ha, hb, hcc⟩ := ih (acc ++ [(n, off)]) (dictInsert g1a n d1a)
        (dictInsert g2a n d2a) e1 r hm2 h
      refine ⟨?_, by rw [hb, hg1], by rw [hcc, hg2]⟩
      rw [ha, names_append]
      simp [names]

/-- C6 corrected: the key-union law holds for the genotype assembled by
uniform crossover before the replay: the merged dictionary passed to
`fix_ind` has exactly the union of the two parents' name sets. (The solution
returned by `crossover_uniform_ind` afterwards replays this merge through the
generator, which prunes any name the replay does not reach, so the returned
genotype can be a strict subset of the union — see the counterexample.) -/
theorem crossover_merge_key_union (dbg : Bool) (g1 g2 : Trace) (e : Entropy)
    (r : (Trace × Trace × Trace) × Entropy)
    (h : crossoverUniformMerge dbg g1 g2 e = .ok r) (n : String) :
    n ∈ names r.1.1 ↔ n ∈ names g1 ∨ n ∈ names g2 := by
  unfold crossoverUniformMerge at h
  cases ha : alignGenotypes dbg [g1, g2] with
  | error er => rw [ha] at h; simp at h
  | ok al =>
    simp only [ha] at h
    cases hc : crossEntries al [] g1 g2 e with
    | error er => rw [hc] at h; simp at h
    | ok rc =>
      simp only [hc] at h
      obtain ⟨⟨newAlign, g1a, g2a⟩, e1⟩ := rc
      simp only [Except.ok.injEq] at h
      have hal := alignGenotypes_pair_ok ha
      have hmem : ∀ m ∈ al, hasName g1 m = true ∧ hasName g2 m = true := by
        intro m hmm
        rw [hal, List.mem_filter] at hmm
        exact ⟨hasName_iff.mpr hmm.1, hmm.2⟩
      obtain ⟨hna, hn1, hn2⟩ := crossEntries_names al [] g1 g2 e _ hmem hc
      rw [← h]
      show n ∈ names (dictUnion (dictUnion g1a g2a) newAlign) ↔ _
      rw [mem_names_dictUnion, mem_names_dictUnion, hn1, hn2]
      simp only [List.nil_append] at hna
      constructor
      · rintro ((h1 | h2) | h3)
        · exact Or.inl h1
        · exact Or.inr h2
        · rw [hna, hal] at h3
          exact Or.inl (List.mem_of_mem_filter h3)
      · rintro (h1 | h2)
        · exact Or.inl (Or.inl h1)
        · exact Or.inl (Or.inr h2)

/-- C6 amended witness: the merge of the example parents and the key-union
law applied to it at the name only one parent holds. -/
theorem crossover_merge_key_union_witness :
    crossoverUniformMerge true solA.geno solB.geno [0] = .ok rC6m ∧
    ("extra" ∈ names rC6m.1.1 ↔
      "extra" ∈ names solA.geno ∨ "extra" ∈ names solB.geno) := by
  have hEval : crossoverUniformMerge true solA.geno solB.geno [0] = .ok rC6m := by
    simp [crossoverUniformMerge, alignGenotypes, crossEntries,
      Dist.crossoverFull, dictUnion, dictInsert, hasName, lookup, names, solA,
      solB, rC6m, RFun.fname, RFun.kind, PVal.q, toIntQ, drawRandint, drawUnit,
      nextR, Int.fract, dummyDist]
  exact ⟨hEval,
    crossover_merge_key_union true solA.geno solB.geno [0] rC6m hEval "extra"⟩

/-- C6 counterexample: the claim as stated is about the solution returned by
uniform crossover, which replays the merged genotype through the generator
and so prunes stale names. On the branching generator `gBranch`, both
parents are genuine solutions (first two conjuncts); parent `solA` holds the
name "extra" but the returned child's genotype holds only "b": its key set
is a strict subset of the union of the parents' key sets. -/
theorem crossover_uniform_prunes_stale_names :
    play true gBranch [] [1 / 2, 1 / 4] = .ok ((solA.pheno, solA.geno), []) ∧
    play true gBranch [] [0] = .ok ((solB.pheno, solB.geno), []) ∧
    crossoverUniformInd true gBranch solA solB [0] =
      .ok ({ pheno := .num 0,
             geno := [("b", { fn := .randint 0 1, val := .num 0 })] }, []) ∧
    "extra" ∈ names solA.geno ∧
    "extra" ∉ names [("b", ({ fn := .randint 0 1, val := .num 0 } : Dist))] := by
  refine ⟨?_, ?_, ?_, ?_, ?_⟩
  · norm_num [play, runGen, traceSample, resolve, hasName, lookup, dictInsert,
      Dist.sampleD, RFun.sampleVal, drawUniform, drawUnit, nextR, drawRandint,
      gBranch, solA, Int.fract]
    simp
  · simp [play, runGen, traceSample, resolve, hasName, lookup, dictInsert,
      Dist.sampleD, RFun.sampleVal, drawUniform, drawUnit, nextR, drawRandint,
      gBranch, solB, Int.fract]
  · simp [crossoverUniformInd, crossoverUniformIndFull, crossoverUniformMerge,
      alignGenotypes, crossEntries, Dist.crossoverFull, dictUnion, dictInsert,
      hasName, lookup, names, solA, solB, gBranch, RFun.fname, RFun.kind,
      PVal.q, toIntQ, drawRandint, drawUnit, nextR, Int.fract, fixInd, play,
      runGen, traceSample, resolve, dummyDist, Dist.sampleD, RFun.sampleVal,
      drawUniform]
  · simp [solA, names]
  · simp [names]

/-! Helper lemmas for the integer crossover bounds. -/

theorem drawRandint_bounds {a b : ℤ} {e e1 : Entropy} {m : ℤ}
    (hab : a ≤ b) (h : drawRandint a b e = .ok (m, e1)) : a ≤ m ∧ m ≤ b := by
  rw [drawRandint, if_neg (not_lt.mpr hab)] at h
  simp only [Except.ok.injEq, Prod.mk.injEq] at h
  obtain ⟨hm, _⟩ := h
  have h0 : (0 : ℚ) ≤ (drawUnit e).1 := Int.fract_nonneg ((nextR e).1)
  have h1 : (drawUnit e).1 < 1 := Int.fract_lt_one ((nextR e).1)
  have hpos : (0 : ℚ) < (b : ℚ) - a + 1 := by
    have : (a : ℚ) ≤ (b : ℚ) := by exact_mod_cast hab
    linarith
  have hf0 : 0 ≤ ⌊(drawUnit e).1 * ((b : ℚ) - a + 1)⌋ :=
    Int.floor_nonneg.mpr (mul_nonneg h0 (le_of_lt hpos))
  have hfu : ⌊(drawUnit e).1 * ((b : ℚ) - a + 1)⌋ ≤ b - a := by
    have hlt : (drawUnit e).1 * ((b : ℚ) - a + 1) < ((b - a + 1 : ℤ) : ℚ) := by
      push_cast
      calc (drawUnit e).1 * ((b : ℚ) - a + 1) < 1 * ((b : ℚ) - a + 1) :=
            mul_lt_mul_of_pos_right h1 hpos
        _ = (b : ℚ) - a + 1 := one_mul _
    have := Int.floor_lt.mpr hlt
    omega
  constructor
  · rw [← hm]
    omega
  · rw [← hm]
    omega

/-- C7 amended: for every two same-kind integer distributions with integer
values, every possible crossover offspring value lies between the two
parents' values — hence within [min, max] whenever both parents are in
bounds. The offspring value need not be a multiple of the step from min when
the step exceeds 1: the source draws `randint(min_val, max_val)` without
rounding to the step grid (see the counterexample). -/
theorem int_crossover_within_bounds (d o : Dist) (v ov : ℤ) (e : Entropy)
    (r : (Dist × Dist × Dist) × Entropy)
    (hk : d.fn.kind = Kind.int) (hn : d.fn.fname = o.fn.fname)
    (hv : d.val = .num (v : ℚ)) (hov : o.val = .num (ov : ℚ))
    (h : Dist.crossoverFull d o e = .ok r) :
    ∃ m : ℤ, r.1.1.val = .num (m : ℚ) ∧ min v ov ≤ m ∧ m ≤ max v ov := by
  unfold Dist.crossoverFull at h
  rw [if_pos ⟨hn, by rw [hk]; decide⟩] at h
  simp only [hk] at h
  rw [hv, hov] at h
  simp only [PVal.q, toIntQ, Rat.den_intCast, Rat.num_intCast, ite_true] at h
  cases hdr : drawRandint (min v ov) (max v ov) e with
  | error er => rw [hdr] at h; simp at h
  | ok pr =>
    obtain ⟨m, e1⟩ := pr
    rw [hdr] at h
    simp only [Except.ok.injEq] at h
    obtain ⟨hlo, hhi⟩ := drawRandint_bounds (min_le_max) hdr
    refine ⟨m, ?_, hlo, hhi⟩
    rw [← h]

/-- C7 amended witness: the bounds applied at the concrete crossover of the
randrange(0, 11, 2) parents with values 4 and 0 on entropy [3/10]. -/
theorem int_crossover_within_bounds_witness :
    ∃ m : ℤ, rC7.1.1.val = .num (m : ℚ) ∧ min 4 0 ≤ m ∧ m ≤ max 4 0 :=
  int_crossover_within_bounds dC7 oC7 4 0 [3 / 10] rC7 rfl rfl
    (by norm_num [dC7]) (by norm_num [oC7])
    (by norm_num [Dist.crossoverFull, dC7, oC7, rC7, RFun.fname, RFun.kind,
      PVal.q, toIntQ, drawRandint, drawUnit, nextR, Int.fract]
        exact fun hcc => Kind.noConfusion hcc)

/-- C7 counterexample: the claim as stated also requires the crossover
offspring value to be a multiple of the step from min. With step 2 parents
randrange(0, 11, 2) holding the in-support values 4 and 0 (both even), the
crossover draws randint(0, 4) with no rounding and can return 1, which is in
bounds but not on the step grid: the offspring value minus min is not
divisible by the step. -/
theorem int_crossover_off_step_grid :
    Dist.crossoverFull dC7 oC7 [3 / 10] = .ok rC7 ∧
    (2 ∣ (4 - 0 : ℤ)) ∧ (2 ∣ (0 - 0 : ℤ)) ∧ ¬ (2 ∣ (1 - 0 : ℤ)) := by
  refine ⟨?_, by decide, by decide, by decide⟩
  norm_num [Dist.crossoverFull, dC7, oC7, rC7, RFun.fname, RFun.kind,
    PVal.q, toIntQ, drawRandint, drawUnit, nextR, Int.fract]
  exact fun hcc => Kind.noConfusion hcc

/-! Helper lemmas for operator non-mutation: the swap-or-replace pass leaves
the pool untouched when it is used with replacement. -/

theorem ok_inj {α : Type} {x y : α} (h : (Except.ok x : Except PyErr α) = .ok y) :
    x = y := by injection h

theorem srStep_snd (b : Atom) (i : ℕ) (st : List Atom × List Atom) :
    (srStep true b i st).2 = st.2 := by
  obtain ⟨cross, pop⟩ := st
  unfold srStep
  repeat' split
  all_goals simp_all

theorem srFold_snd (seq2 : List Atom) :
    ∀ (l : List ℕ) (st : List Atom × List Atom),
    ((l.foldl (fun st i => srStep true (seq2.getD i 0) i st) st)).2 = st.2 := by
  intro l
  induction l with
  | nil => intro st; rfl
  | cons i l ih =>
    intro st
    rw [List.foldl_cons, ih, srStep_snd]

theorem swapReplaceCrossover_pop {s1 s2 p : List Atom} {ep : Bool}
    {e e1 : Entropy} {c p1 : List Atom}
    (h : swapReplaceCrossover s1 s2 p true ep e = .ok ((c, p1), e1)) : p1 = p := by
  unfold swapReplaceCrossover at h
  split at h
  · exact absurd h (by simp)
  · have h2 := congrArg (fun x => x.1.2) (ok_inj h)
    simp only at h2
    rw [srFold_snd] at h2
    exact h2.symm

theorem mutationFull_post {d : Dist} {e : Entropy} {r : (Dist × Dist) × Entropy}
    (h : Dist.mutationFull d e = .ok r) : r.1.2 = d := by
  unfold Dist.mutationFull at h
  cases hm : d.mutationD e with
  | error er => rw [hm] at h; simp at h
  | ok pr =>
    obtain ⟨off, e1⟩ := pr
    simp only [hm] at h
    rw [← ok_inj h]

theorem crossoverFull_post {d o : Dist} {e : Entropy}
    {r : (Dist × Dist × Dist) × Entropy}
    (h : Dist.crossoverFull d o e = .ok r) : r.1.2.1 = d ∧ r.1.2.2 = o := by
  unfold Dist.crossoverFull at h
  by_cases hc : d.fn.fname = o.fn.fname ∧ d.fn.kind ≠ Kind.cat
  · rw [if_pos hc] at h
    cases hk : d.fn.kind with
    | real =>
      simp only [hk] at h
      cases hq1 : d.val.q with
      | error er => simp only [hq1] at h; exact absurd h (by simp)
      | ok v =>
        simp only [hq1] at h
        cases hq2 : o.val.q with
        | error er => simp only [hq2] at h; exact absurd h (by simp)
        | ok ov =>
          simp only [hq2] at h
          rw [← ok_inj h]
          exact ⟨rfl, rfl⟩
    | int =>
      simp only [hk] at h
      cases hq1 : d.val.q with
      | error er => simp only [hq1] at h; exact absurd h (by simp)
      | ok v =>
        simp only [hq1] at h
        cases hq2 : o.val.q with
        | error er => simp only [hq2] at h; exact absurd h (by simp)
        | ok ov =>
          simp only [hq2] at h
          cases ht1 : toIntQ v with
          | error er => simp only [ht1] at h; exact absurd h (by simp)
          | ok vi =>
            simp only [ht1] at h
            cases ht2 : toIntQ ov with
            | error er => simp only [ht2] at h; exact absurd h (by simp)
            | ok ovi =>
              simp only [ht2] at h
              cases hdr : drawRandint (min vi ovi) (max vi ovi) e with
              | error er => simp only [hdr] at h; exact absurd h (by simp)
              | ok pr =>
                obtain ⟨nv, e1⟩ := pr
                simp only [hdr] at h
                rw [← ok_inj h]
                exact ⟨rfl, rfl⟩
    | cat => exact absurd hk hc.2
    | seq =>
      simp only [hk] at h
      cases hl1 : d.val.list with
      | error er => simp only [hl1] at h; exact absurd h (by simp)
      | ok v =>
        simp only [hl1] at h
        cases hl2 : o.val.list with
        | error er => simp only [hl2] at h; exact absurd h (by simp)
        | ok ov =>
          simp only [hl2] at h
          cases hfn : d.fn with
          | choices s k =>
            simp only [hfn, replacePool, replaceWithRepl] at h
            cases hsw : swapReplaceCrossover v ov s true false e with
            | error er => simp only [hsw] at h; exact absurd h (by simp)
            | ok pr =>
              obtain ⟨⟨res, pop1⟩, e1⟩ := pr
              simp only [hsw] at h
              have hpop := swapReplaceCrossover_pop hsw
              rw [← ok_inj h]
              refine ⟨?_, rfl⟩
              show { d with fn := .choices pop1 k } = d
              cases d with
              | mk fn val =>
                simp only at hfn
                simp only [hfn, hpop]
          | shuffle s =>
            simp only [hfn, replacePool, replaceWithRepl] at h
            cases hsw : swapReplaceCrossover v ov [] false false e with
            | error er => simp only [hsw] at h; exact absurd h (by simp)
            | ok pr =>
              obtain ⟨⟨res, pop1⟩, e1⟩ := pr
              simp only [hsw] at h
              rw [← ok_inj h]
              exact ⟨rfl, rfl⟩
          | sample s k =>
            simp only [hfn, replacePool, replaceWithRepl] at h
            cases hsw : swapReplaceCrossover v ov (multisetDiff s v) false false e with
            | error er => simp only [hsw] at h; exact absurd h (by simp)
            | ok pr =>
              obtain ⟨⟨res, pop1⟩, e1⟩ := pr
              simp only [hsw] at h
              rw [← ok_inj h]
              exact ⟨rfl, rfl⟩
          | random =>
            simp only [hfn, replacePool, replaceWithRepl] at h
            cases hsw : swapReplaceCrossover v ov [] false false e with
            | error er => simp only [hsw] at h; exact absurd h (by simp)
            | ok pr =>
              obtain ⟨⟨res, pop1⟩, e1⟩ := pr
              simp only [hsw] at h
              rw [← ok_inj h]
              exact ⟨rfl, rfl⟩
          | uniform a b =>
            simp only [hfn, replacePool, replaceWithRepl] at h
            cases hsw : swapReplaceCrossover v ov [] false false e with
            | error er => simp only [hsw] at h; exact absurd h (by simp)
            | ok pr =>
              obtain ⟨⟨res, pop1⟩, e1⟩ := pr
              simp only [hsw] at h
              rw [← ok_inj h]
              exact ⟨rfl, rfl⟩
          | randint a b =>
            simp only [hfn, replacePool, replaceWithRepl] at h
            cases hsw : swapReplaceCrossover v ov [] false false e with
            | error er => simp only [hsw] at h; exact absurd h (by simp)
            | ok pr =>
              obtain ⟨⟨res, pop1⟩, e1⟩ := pr
              simp only [hsw] at h
              rw [← ok_inj h]
              exact ⟨rfl, rfl⟩
          | randrange a b c =>
            simp only [hfn, replacePool, replaceWithRepl] at h
            cases hsw : swapReplaceCrossover v ov [] false false e with
            | error er => simp only [hsw] at h; exact absurd h (by simp)
            | ok pr =>
              obtain ⟨⟨res, pop1⟩, e1⟩ := pr
              simp only [hsw] at h
              rw [← ok_inj h]
              exact ⟨rfl, rfl⟩
          | choice s =>
            simp only [hfn, replacePool, replaceWithRepl] at h
            cases hsw : swapReplaceCrossover v ov [] false false e with
            | error er => simp only [hsw] at h; exact absurd h (by simp)
            | ok pr =>
              obtain ⟨⟨res, pop1⟩, e1⟩ := pr
              simp only [hsw] at h
              rw [← ok_inj h]
              exact ⟨rfl, rfl⟩
  · rw [if_neg hc] at h
    cases hdc : drawChoice [d, o] e with
    | error er => simp only [hdc] at h; exact absurd h (by simp)
    | ok pr =>
      obtain ⟨c, e1⟩ := pr
      simp only [hdc] at h
      rw [← ok_inj h]
      exact ⟨rfl, rfl⟩

theorem convexCrossoverFull_post {d o1 o2 : Dist} {e : Entropy}
    {r : (Dist × Dist × Dist × Dist) × Entropy}
    (h : Dist.convexCrossoverFull d o1 o2 e = .ok r) :
    r.1.2.1 = d ∧ r.1.2.2.1 = o1 ∧ r.1.2.2.2 = o2 := by
  unfold Dist.convexCrossoverFull at h
  by_cases hc : (d.fn.fname = o1.fn.fname ∧ d.fn.fname = o2.fn.fname) ∧
      d.fn.kind ≠ Kind.cat
  · rw [if_pos hc] at h
    cases hk : d.fn.kind with
    | cat => exact absurd hk hc.2
    | real =>
      simp only [hk] at h
      cases hq1 : d.val.q with
      | error er => simp only [hq1] at h; exact absurd h (by simp)
      | ok v =>
        simp only [hq1] at h
        cases hq2 : o1.val.q with
        | error er => simp only [hq2] at h; exact absurd h (by simp)
        | ok ov1 =>
          simp only [hq2] at h
          cases hq3 : o2.val.q with
          | error er => simp only [hq3] at h; exact absurd h (by simp)
          | ok ov2 =>
            simp only [hq3] at h
            rw [← ok_inj h]
            exact ⟨rfl, rfl, rfl⟩
    | int =>
      simp only [hk] at h
      cases hq1 : d.val.q with
      | error er => simp only [hq1] at h; exact absurd h (by simp)
      | ok v =>
        simp only [hq1] at h
        cases hq2 : o1.val.q with
        | error er => simp only [hq2] at h; exact absurd h (by simp)
        | ok ov1 =>
          simp only [hq2] at h
          cases hq3 : o2.val.q with
          | error er => simp only [hq3] at h; exact absurd h (by simp)
          | ok ov2 =>
            simp only [hq3] at h
            cases ht1 : toIntQ v with
            | error er => simp only [ht1] at h; exact absurd h (by simp)
            | ok vi =>
              simp only [ht1] at h
              cases ht2 : toIntQ ov1 with
              | error er => simp only [ht2] at h; exact absurd h (by simp)
              | ok vi1 =>
                simp only [ht2] at h
                cases ht3 : toIntQ ov2 with
                | error er => simp only [ht3] at h; exact absurd h (by simp)
                | ok vi2 =>
                  simp only [ht3] at h
                  cases hdr : drawRandint (min vi (min vi1 vi2))
                      (max vi (max vi1 vi2)) e with
                  | error er => simp only [hdr] at h; exact absurd h (by simp)
                  | ok pr =>
                    obtain ⟨nv, e1⟩ := pr
                    simp only [hdr] at h
                    rw [← ok_inj h]
                    exact ⟨rfl, rfl, rfl⟩
    | seq =>
      simp only [hk] at h
      cases hl1 : d.val.list with
      | error er => simp only [hl1] at h; exact absurd h (by simp)
      | ok v =>
        simp only [hl1] at h
        cases hl2 : o1.val.list with
        | error er => simp only [hl2] at h; exact absurd h (by simp)
        | ok ov1 =>
          simp only [hl2] at h
          cases hl3 : o2.val.list with
          | error er => simp only [hl3] at h; exact absurd h (by simp)
          | ok ov2 =>
            simp only [hl3] at h
            cases hfn : d.fn with
            | choices s k =>
              simp only [hfn, replacePool, replaceWithRepl] at h
              cases hsw1 : swapReplaceCrossover v ov1 s true false e with
              | error er => simp only [hsw1] at h; exact absurd h (by simp)
              | ok pr1 =>
                obtain ⟨⟨res1, pop1⟩, e1⟩ := pr1
                simp only [hsw1] at h
                cases hsw2 : swapReplaceCrossover res1 ov2 pop1 true false e1 with
                | error er => simp only [hsw2] at h; exact absurd h (by simp)
                | ok pr2 =>
                  obtain ⟨⟨res2, pop2⟩, e2⟩ := pr2
                  simp only [hsw2] at h
                  have hp1 := swapReplaceCrossover_pop hsw1
                  have hp2 := swapReplaceCrossover_pop hsw2
                  rw [← ok_inj h]
                  refine ⟨?_, rfl, rfl⟩
                  show { d with fn := .choices pop2 k } = d
                  cases d with
                  | mk fn val =>
                    simp only at hfn
                    simp only [hfn, hp2, hp1]
            | random =>
              simp only [hfn, replacePool, replaceWithRepl] at h
              split at h
              · exact absurd h (by simp)
              · split at h
                · exact absurd h (by simp)
                · rw [← ok_inj h]
                  exact ⟨rfl, rfl, rfl⟩
            | uniform a b =>
              simp only [hfn, replacePool, replaceWithRepl] at h
              split at h
              · exact absurd h (by simp)
              · split at h
                · exact absurd h (by simp)
                · rw [← ok_inj h]
                  exact ⟨rfl, rfl, rfl⟩
            | randint a b =>
              simp only [hfn, replacePool, replaceWithRepl] at h
              split at h
              · exact absurd h (by simp)
              · split at h
                · exact absurd h (by simp)
                · rw [← ok_inj h]
                  exact ⟨rfl, rfl, rfl⟩
            | randrange a b c =>
              simp only [hfn, replacePool, replaceWithRepl] at h
              split at h
              · exact absurd h (by simp)
              · split at h
                · exact absurd h (by simp)
                · rw [← ok_inj h]
                  exact ⟨rfl, rfl, rfl⟩
            | choice s =>
              simp only [hfn, replacePool, replaceWithRepl] at h
              split at h
              · exact absurd h (by simp)
              · split at h
                · exact absurd h (by simp)
                · rw [← ok_inj h]
                  exact ⟨rfl, rfl, rfl⟩
            | shuffle s =>
              simp only [hfn, replacePool, replaceWithRepl] at h
              split at h
              · exact absurd h (by simp)
              · split at h
                · exact absurd h (by simp)
                · rw [← ok_inj h]
                  exact ⟨rfl, rfl, rfl⟩
            | sample s k =>
              simp only [hfn, replacePool, replaceWithRepl] at h
              split at h
              · exact absurd h (by simp)
              · split at h
                · exact absurd h (by simp)
                · rw [← ok_inj h]
                  exact ⟨rfl, rfl, rfl⟩
  · rw [if_neg hc] at h
    cases hdc : drawChoice [d, o1, o2] e with
    | error er => simp only [hdc] at h; exact absurd h (by simp)
    | ok pr =>
      obtain ⟨c, e1⟩ := pr
      simp only [hdc] at h
      rw [← ok_inj h]
      exact ⟨rfl, rfl, rfl⟩

theorem distanceFull_post {d o : Dist} {r : DRes × Dist × Dist}
    (h : Dist.distanceFull d o = .ok r) : r.2.1 = d ∧ r.2.2 = o := by
  unfold Dist.distanceFull at h
  repeat' split at h
  all_goals first
    | (rw [← ok_inj h]; exact ⟨rfl, rfl⟩)
    | simp at h

theorem drawChoice_mem {α : Type} {l : List α} {e e1 : Entropy} {x : α}
    (h : drawChoice l e = .ok (x, e1)) : x ∈ l := by
  cases l with
  | nil => simp [drawChoice] at h
  | cons y ys =>
    simp only [drawChoice, Except.ok.injEq, Prod.mk.injEq] at h
    rw [← h.1]
    rw [List.getD_eq_getElem?_getD]
    cases hg : (y :: ys)[(⌊(drawUnit e).1 * ((ys.length : ℚ) + 1)⌋).toNat]? with
    | none => exact List.mem_cons_self y ys
    | some z =>
      simp only [Option.getD_some]
      exact List.getElem?_mem hg

theorem alignGenotypes_mem {dbg : Bool} {g1 : Trace} {rest : List Trace}
    {al : List String} (h : alignGenotypes dbg (g1 :: rest) = .ok al) :
    ∀ n ∈ al, n ∈ names g1 ∧ ∀ g ∈ rest, hasName g n = true := by
  simp only [alignGenotypes] at h
  split at h
  · exact absurd h (by simp)
  · simp only [Except.ok.injEq] at h
    intro n hn
    rw [← h, List.mem_filter] at hn
    exact ⟨hn.1, List.all_eq_true.mp hn.2⟩

theorem crossEntries_post :
    ∀ (ns : List String) (acc g1a g2a : Trace) (e : Entropy)
      (r : (Trace × Trace × Trace) × Entropy),
    (names g1a).Nodup → (names g2a).Nodup →
    (∀ n ∈ ns, hasName g1a n = true ∧ hasName g2a n = true) →
    crossEntries ns acc g1a g2a e = .ok r → r.1.2.1 = g1a ∧ r.1.2.2 = g2a := by
  intro ns
  induction ns with
  | nil =>
    intro acc g1a g2a e r _ _ _ h
    simp only [crossEntries, Except.ok.injEq] at h
    rw [← h]
    exact ⟨rfl, rfl⟩
  | cons n ns ih =>
    intro acc g1a g2a e r hn1 hn2 hm h
    simp only [crossEntries] at h
    obtain ⟨hx1, hx2⟩ := hm n (List.mem_cons_self n ns)
    obtain ⟨d1, hd1⟩ := lookup_some_of_hasName hx1
    obtain ⟨d2, hd2⟩ := lookup_some_of_hasName hx2
    simp only [hd1, hd2, Option.getD_some] at h
    cases hc : Dist.crossoverFull d1 d2 e with
    | error er => simp only [hc] at h; exact absurd h (by simp)
    | ok pr =>
      obtain ⟨⟨off, d1a, d2a⟩, e1⟩ := pr
      simp only [hc] at h
      have hp1 : d1a = d1 := (crossoverFull_post hc).1
      have hp2 : d2a = d2 := (crossoverFull_post hc).2
      rw [hp1, hp2, dictInsert_self hn1 hd1, dictInsert_self hn2 hd2] at h
      exact ih (acc ++ [(n, off)]) g1a g2a e1 r hn1 hn2
        (fun m hmm => hm m (List.mem_cons_of_mem n hmm)) h

theorem convexEntries_post :
    ∀ (ns : List String) (acc g1a g2a g3a : Trace) (e : Entropy)
      (r : (Trace × Trace × Trace × Trace) × Entropy),
    (names g1a).Nodup → (names g2a).Nodup → (names g3a).Nodup →
    (∀ n ∈ ns, hasName g1a n = true ∧ hasName g2a n = true ∧
      hasName g3a n = true) →
    convexEntries ns acc g1a g2a g3a e = .ok r →
    r.1.2.1 = g1a ∧ r.1.2.2.1 = g2a ∧ r.1.2.2.2 = g3a := by
  intro ns
  induction ns with
  | nil =>
    intro acc g1a g2a g3a e r _ _ _ _ h
    simp only [convexEntries, Except.ok.injEq] at h
    rw [← h]
    exact ⟨rfl, rfl, rfl⟩
  | cons n ns ih =>
    intro acc g1a g2a g3a e r hn1 hn2 hn3 hm h
    simp only [convexEntries] at h
    obtain ⟨hx1, hx2, hx3⟩ := hm n (List.mem_cons_self n ns)
    obtain ⟨d1, hd1⟩ := lookup_some_of_hasName hx1
    obtain ⟨d2, hd2⟩ := lookup_some_of_hasName hx2
    obtain ⟨d3, hd3⟩ := lookup_some_of_hasName hx3
    simp only [hd1, hd2, hd3, Option.getD_some] at h
    cases hc : Dist.convexCrossoverFull d1 d2 d3 e with
    | error er => simp only [hc] at h; exact absurd h (by simp)
    | ok pr =>
      obtain ⟨⟨off, d1a, d2a, d3a⟩, e1⟩ := pr
      simp only [hc] at h
      have hp1 : d1a = d1 := (convexCrossoverFull_post hc).1
      have hp2 : d2a = d2 := (convexCrossoverFull_post hc).2.1
      have hp3 : d3a = d3 := (convexCrossoverFull_post hc).2.2
      rw [hp1, hp2, hp3, dictInsert_self hn1 hd1, dictInsert_self hn2 hd2,
        dictInsert_self hn3 hd3] at h
      exact ih (acc ++ [(n, off)]) g1a g2a g3a e1 r hn1 hn2 hn3
        (fun m hmm => hm m (List.mem_cons_of_mem n hmm)) h

theorem distEntries_post :
    ∀ (ns : List String) (g1a g2a : Trace) (acc : ℚ)
      (r : ℚ × Trace × Trace),
    (names g1a).Nodup → (names g2a).Nodup →
    (∀ n ∈ ns, hasName g1a n = true ∧ hasName g2a n = true) →
    distEntries ns g1a g2a acc = .ok r → r.2.1 = g1a ∧ r.2.2 = g2a := by
  intro ns
  induction ns with
  | nil =>
    intro g1a g2a acc r _ _ _ h
    simp only [distEntries, Except.ok.injEq] at h
    rw [← h]
    exact ⟨rfl, rfl⟩
  | cons n ns ih =>
    intro g1a g2a acc r hn1 hn2 hm h
    simp only [distEntries] at h
    obtain ⟨hx1, hx2⟩ := hm n (List.mem_cons_self n ns)
    obtain ⟨d1, hd1⟩ := lookup_some_of_hasName hx1
    obtain ⟨d2, hd2⟩ := lookup_some_of_hasName hx2
    simp only [hd1, hd2, Option.getD_some] at h
    cases hc : Dist.distanceFull d1 d2 with
    | error er => simp only [hc] at h; exact absurd h (by simp)
    | ok pr =>
      obtain ⟨res, d1a, d2a⟩ := pr
      simp only [hc] at h
      have hp1 : d1a = d1 := (distanceFull_post hc).1
      have hp2 : d2a = d2 := (distanceFull_post hc).2
      cases res with
      | num q =>
        simp only [hp1, hp2] at h
        rw [dictInsert_self hn1 hd1, dictInsert_self hn2 hd2] at h
        exact ih g1a g2a (acc + q) r hn1 hn2
          (fun m hmm => hm m (List.mem_cons_of_mem n hmm)) h
      | tup a b c => exact absurd h (by simp)

theorem mutEntries_post (p : ℚ) :
    ∀ (l : List (String × Dist)) (e : Entropy) (r : (Trace × Trace) × Entropy),
    mutEntries p l e = .ok r → r.1.2 = l := by
  intro l
  induction l with
  | nil =>
    intro e r h
    simp only [mutEntries, Except.ok.injEq] at h
    rw [← h]
  | cons nd rest ih =>
    obtain ⟨n, d⟩ := nd
    intro e r h
    simp only [mutEntries] at h
    by_cases hu : (drawUnit e).1 ≤ p
    · rw [if_pos hu] at h
      cases hmf : Dist.mutationFull d (drawUnit e).2 with
      | error er => simp only [hmf] at h; exact absurd h (by simp)
      | ok pr =>
        obtain ⟨⟨off, dA⟩, e2⟩ := pr
        simp only [hmf] at h
        have hdA : dA = d := mutationFull_post hmf
        cases hrec : mutEntries p rest e2 with
        | error er => simp only [hrec] at h; exact absurd h (by simp)
        | ok pr2 =>
          obtain ⟨⟨ng, pg⟩, e3⟩ := pr2
          simp only [hrec] at h
          have hpg : pg = rest := ih e2 ((ng, pg), e3) hrec
          rw [← ok_inj h]
          show (n, dA) :: pg = (n, d) :: rest
          rw [hdA, hpg]
    · rw [if_neg hu] at h
      cases hrec : mutEntries p rest (drawUnit e).2 with
      | error er => simp only [hrec] at h; exact absurd h (by simp)
      | ok pr2 =>
        obtain ⟨⟨ng, pg⟩, e3⟩ := pr2
        simp only [hrec] at h
        have hpg : pg = rest := ih (drawUnit e).2 ((ng, pg), e3) hrec
        rw [← ok_inj h]
        show (n, d) :: pg = (n, d) :: rest
        rw [hpg]

theorem mutatePointIndFull_post {ρ : Type} {dbg : Bool} {g : Gen ρ}
    {s : Sol ρ} {e : Entropy} {r : (Sol ρ × Trace) × Entropy}
    (hnd : (names s.geno).Nodup)
    (h : mutatePointIndFull dbg g s e = .ok r) : r.1.2 = s.geno := by
  unfold mutatePointIndFull at h
  cases hdc : drawChoice (names s.geno) e with
  | error er => simp only [hdc] at h; exact absurd h (by simp)
  | ok pr =>
    obtain ⟨n, e1⟩ := pr
    simp only [hdc] at h
    obtain ⟨d, hd⟩ := lookup_some_of_hasName (hasName_iff.mpr (drawChoice_mem hdc))
    simp only [hd, Option.getD_some] at h
    cases hmf : Dist.mutationFull d e1 with
    | error er => simp only [hmf] at h; exact absurd h (by simp)
    | ok pr2 =>
      obtain ⟨⟨off, dA⟩, e2⟩ := pr2
      simp only [hmf] at h
      have hdA : dA = d := mutationFull_post hmf
      cases hfx : fixInd dbg g (dictInsert s.geno n off) e2 with
      | error er => simp only [hfx] at h; exact absurd h (by simp)
      | ok pr3 =>
        obtain ⟨child, e3⟩ := pr3
        simp only [hfx] at h
        rw [← ok_inj h]
        show dictInsert s.geno n dA = s.geno
        rw [hdA, dictInsert_self hnd hd]

theorem mutatePositionWiseIndFull_post {ρ : Type} {dbg : Bool} {g : Gen ρ}
    {s : Sol ρ} {e : Entropy} {r : (Sol ρ × Trace) × Entropy}
    (h : mutatePositionWiseIndFull dbg g s e = .ok r) : r.1.2 = s.geno := by
  unfold mutatePositionWiseIndFull at h
  split at h
  · exact absurd h (by simp)
  · cases hme : mutEntries (1 / (s.geno.length : ℚ)) s.geno e with
    | error er => simp only [hme] at h; exact absurd h (by simp)
    | ok pr =>
      obtain ⟨⟨ng, pg⟩, e1⟩ := pr
      simp only [hme] at h
      have hpg : pg = s.geno := mutEntries_post _ s.geno e ((ng, pg), e1) hme
      cases hfx : fixInd dbg g ng e1 with
      | error er => simp only [hfx] at h; exact absurd h (by simp)
      | ok pr2 =>
        obtain ⟨child, e2⟩ := pr2
        simp only [hfx] at h
        rw [← ok_inj h]
        exact hpg

theorem crossoverUniformIndFull_post {ρ : Type} {dbg : Bool} {g : Gen ρ}
    {s1 s2 : Sol ρ} {e : Entropy} {r : (Sol ρ × Trace × Trace) × Entropy}
    (hn1 : (names s1.geno).Nodup) (hn2 : (names s2.geno).Nodup)
    (h : crossoverUniformIndFull dbg g s1 s2 e = .ok r) :
    r.1.2.1 = s1.geno ∧ r.1.2.2 = s2.geno := by
  unfold crossoverUniformIndFull crossoverUniformMerge at h
  cases ha : alignGenotypes dbg [s1.geno, s2.geno] with
  | error er => simp only [ha] at h; exact absurd h (by simp)
  | ok al =>
    simp only [ha] at h
    cases hc : crossEntries al [] s1.geno s2.geno e with
    | error er => simp only [hc] at h; exact absurd h (by simp)
    | ok rc =>
      obtain ⟨⟨newAlign, g1a, g2a⟩, e1⟩ := rc
      simp only [hc] at h
      have hmem : ∀ n ∈ al, hasName s1.geno n = true ∧
          hasName s2.geno n = true := by
        intro n hn
        obtain ⟨hm1, hm2⟩ := alignGenotypes_mem ha n hn
        exact ⟨hasName_iff.mpr hm1, hm2 s2.geno (by simp)⟩
      have hg1 : g1a = s1.geno :=
        (crossEntries_post al [] s1.geno s2.geno e _ hn1 hn2 hmem hc).1
      have hg2 : g2a = s2.geno :=
        (crossEntries_post al [] s1.geno s2.geno e _ hn1 hn2 hmem hc).2
      cases hfx : fixInd dbg g (dictUnion (dictUnion g1a g2a) newAlign) e1 with
      | error er => simp only [hfx] at h; exact absurd h (by simp)
      | ok pr =>
        obtain ⟨child, e2⟩ := pr
        simp only [hfx] at h
        rw [← ok_inj h]
        exact ⟨hg1, hg2⟩

theorem convexCrossoverIndFull_post {ρ : Type} {dbg : Bool} {g : Gen ρ}
    {s1 s2 s3 : Sol ρ} {e : Entropy}
    {r : (Sol ρ × Trace × Trace × Trace) × Entropy}
    (hn1 : (names s1.geno).Nodup) (hn2 : (names s2.geno).Nodup)
    (hn3 : (names s3.geno).Nodup)
    (h : convexCrossoverIndFull dbg g s1 s2 s3 e = .ok r) :
    r.1.2.1 = s1.geno ∧ r.1.2.2.1 = s2.geno ∧ r.1.2.2.2 = s3.geno := by
  unfold convexCrossoverIndFull at h
  cases ha : alignGenotypes dbg [s1.geno, s2.geno, s3.geno] with
  | error er => simp only [ha] at h; exact absurd h (by simp)
  | ok al =>
    simp only [ha] at h
    cases hc : convexEntries al [] s1.geno s2.geno s3.geno e with
    | error er => simp only [hc] at h; exact absurd h (by simp)
    | ok rc =>
      obtain ⟨⟨newAlign, g1a, g2a, g3a⟩, e1⟩ := rc
      simp only [hc] at h
      have hmem : ∀ n ∈ al, hasName s1.geno n = true ∧
          hasName s2.geno n = true ∧ hasName s3.geno n = true := by
        intro n hn
        obtain ⟨hm1, hm2⟩ := alignGenotypes_mem ha n hn
        exact ⟨hasName_iff.mpr hm1, hm2 s2.geno (by simp), hm2 s3.geno (by simp)⟩
      have hg1 : g1a = s1.geno :=
        (convexEntries_post al [] s1.geno s2.geno s3.geno e _ hn1 hn2 hn3 hmem hc).1
      have hg2 : g2a = s2.geno :=
        (convexEntries_post al [] s1.geno s2.geno s3.geno e _ hn1 hn2 hn3 hmem hc).2.1
      have hg3 : g3a = s3.geno :=
        (convexEntries_post al [] s1.geno s2.geno s3.geno e _ hn1 hn2 hn3 hmem hc).2.2
      cases hfx : fixInd dbg g
          (dictUnion (dictUnion (dictUnion g1a g2a) g3a) newAlign) e1 with
      | error er => simp only [hfx] at h; exact absurd h (by simp)
      | ok pr =>
        obtain ⟨child, e2⟩ := pr
        simp only [hfx] at h
        rw [← ok_inj h]
        exact ⟨hg1, hg2, hg3⟩

theorem distanceIndFull_post {ρ : Type} {s1 s2 : Sol ρ} {r : ℚ × Trace × Trace}
    (hn1 : (names s1.geno).Nodup) (hn2 : (names s2.geno).Nodup)
    (h : distanceIndFull s1 s2 = .ok r) : r.2.1 = s1.geno ∧ r.2.2 = s2.geno := by
  unfold distanceIndFull at h
  cases hd : distEntries ((names s1.geno).filter (fun n => hasName s2.geno n))
      s1.geno s2.geno 0 with
  | error er => simp only [hd] at h; exact absurd h (by simp)
  | ok pr =>
    obtain ⟨q, g1a, g2a⟩ := pr
    simp only [hd] at h
    have hmem : ∀ n ∈ (names s1.geno).filter (fun n => hasName s2.geno n),
        hasName s1.geno n = true ∧ hasName s2.geno n = true := by
      intro n hn
      rw [List.mem_filter] at hn
      exact ⟨hasName_iff.mpr hn.1, hn.2⟩
    have hg1 : g1a = s1.geno := (distEntries_post _ s1.geno s2.geno 0 _ hn1 hn2 hmem hd).1
    have hg2 : g2a = s2.geno := (distEntries_post _ s1.geno s2.geno 0 _ hn1 hn2 hmem hd).2
    rw [← ok_inj h]
    exact ⟨hg1, hg2⟩

/-- C3 amended: none of the per-distribution operators (mutation, crossover,
convex crossover, distance) and none of the solution-level operators
(point and position-wise mutation, uniform and convex crossover, distance)
modifies its arguments: in the explicit post-state embedding, where every
in-place write reachable from an argument is threaded through — including
the one real aliasing in the source, the choices sub-variant whose
replacement pool is the backing sequence object itself — every successful
call returns argument post-states equal to the arguments. Mutation returns a
fresh object; however the distribution-level crossover and convex crossover
fall back to `random.choice` over the parents for categorical entries and
kind mismatches, returning one of the parent objects themselves rather than
a new object (see the counterexample); the solution-level hypotheses require
the genotypes' key uniqueness that Python dicts guarantee. -/
theorem operators_preserve_their_arguments :
    (∀ (d : Dist) (e : Entropy) (r : (Dist × Dist) × Entropy),
      Dist.mutationFull d e = .ok r → r.1.2 = d) ∧
    (∀ (d o : Dist) (e : Entropy) (r : (Dist × Dist × Dist) × Entropy),
      Dist.crossoverFull d o e = .ok r → r.1.2.1 = d ∧ r.1.2.2 = o) ∧
    (∀ (d o1 o2 : Dist) (e : Entropy)
      (r : (Dist × Dist × Dist × Dist) × Entropy),
      Dist.convexCrossoverFull d o1 o2 e = .ok r →
        r.1.2.1 = d ∧ r.1.2.2.1 = o1 ∧ r.1.2.2.2 = o2) ∧
    (∀ (d o : Dist) (r : DRes × Dist × Dist),
      Dist.distanceFull d o = .ok r → r.2.1 = d ∧ r.2.2 = o) ∧
    (∀ (ρ : Type) (dbg : Bool) (g : Gen ρ) (s : Sol ρ) (e : Entropy)
      (r : (Sol ρ × Trace) × Entropy), (names s.geno).Nodup →
      mutatePointIndFull dbg g s e = .ok r → r.1.2 = s.geno) ∧
    (∀ (ρ : Type) (dbg : Bool) (g : Gen ρ) (s : Sol ρ) (e : Entropy)
      (r : (Sol ρ × Trace) × Entropy),
      mutatePositionWiseIndFull dbg g s e = .ok r → r.1.2 = s.geno) ∧
    (∀ (ρ : Type) (dbg : Bool) (g : Gen ρ) (s1 s2 : Sol ρ) (e : Entropy)
      (r : (Sol ρ × Trace × Trace) × Entropy),
      (names s1.geno).Nodup → (names s2.geno).Nodup →
      crossoverUniformIndFull dbg g s1 s2 e = .ok r →
        r.1.2.1 = s1.geno ∧ r.1.2.2 = s2.geno) ∧
    (∀ (ρ : Type) (dbg : Bool) (g : Gen ρ) (s1 s2 s3 : Sol ρ) (e : Entropy)
      (r : (Sol ρ × Trace × Trace × Trace) × Entropy),
      (names s1.geno).Nodup → (names s2.geno).Nodup →
      (names s3.geno).Nodup →
      convexCrossoverIndFull dbg g s1 s2 s3 e = .ok r →
        r.1.2.1 = s1.geno ∧ r.1.2.2.1 = s2.geno ∧ r.1.2.2.2 = s3.geno) ∧
    (∀ (ρ : Type) (s1 s2 : Sol ρ) (r : ℚ × Trace × Trace),
      (names s1.geno).Nodup → (names s2.geno).Nodup →
      distanceIndFull s1 s2 = .ok r → r.2.1 = s1.geno ∧ r.2.2 = s2.geno) :=
  ⟨fun _ _ _ h => mutationFull_post h,
    fun _ _ _ _ h => crossoverFull_post h,
    fun _ _ _ _ _ h => convexCrossoverFull_post h,
    fun _ _ _ h => distanceFull_post h,
    fun _ _ _ _ _ _ hnd h => mutatePointIndFull_post hnd h,
    fun _ _ _ _ _ _ h => mutatePositionWiseIndFull_post h,
    fun _ _ _ _ _ _ _ h1 h2 h => crossoverUniformIndFull_post h1 h2 h,
    fun _ _ _ _ _ _ _ _ h1 h2 h3 h => convexCrossoverIndFull_post h1 h2 h3 h,
    fun _ _ _ _ h1 h2 h => distanceIndFull_post h1 h2 h⟩

/-- C3 amended witness: the choices-kind crossover (the branch with the real
pool aliasing) and the solution-level point mutation, applied at concrete
inputs with the hypotheses discharged by evaluation. -/
theorem operators_preserve_their_arguments_witness :
    (((dChoA, dChoA, dChoB), ([0] : Entropy)).1.2.1 = dChoA ∧
      ((dChoA, dChoA, dChoB), ([0] : Entropy)).1.2.2 = dChoB) ∧
    rPoint.1.2 = solG0.geno := by
  constructor
  · exact operators_preserve_their_arguments.2.1 dChoA dChoB [1 / 5, 0]
      ((dChoA, dChoA, dChoB), [0]) (by
        norm_num [Dist.crossoverFull, dChoA, dChoB, RFun.fname, RFun.kind,
          PVal.list, replacePool, replaceWithRepl, swapReplaceCrossover,
          drawIndex, drawUnit, nextR, Int.fract, List.range_succ, srStep]
        exact fun hcc => Kind.noConfusion hcc)
  · exact operators_preserve_their_arguments.2.2.2.2.1 PVal true g0 solG0
      [0, 7] rPoint (by decide) (by
        norm_num [mutatePointIndFull, solG0, rPoint, t0, g0, names, lookup,
          dictInsert, hasName, drawChoice, drawUnit, nextR, Int.fract,
          Dist.mutationFull, Dist.mutationD, RFun.kind, RFun.realParams,
          PVal.q, drawGauss, realRepairVal, fixInd, play, runGen, traceSample,
          resolve, Dist.sampleD, RFun.sampleVal, drawUniform, drawRandint]
        simp)

/-- C3 counterexample: the claim as stated also asserts that "a new object
is returned instead". The base-class crossover — used for categorical
entries and any kind mismatch — is `random.choice([self, other])`, which
returns one of the parent objects themselves. At the object level, on a
store of two allocated distributions, the call returns the first argument's
reference (address 0, not a fresh address at or beyond the store size 2)
and leaves the store without any new allocation; the value-level crossover
of two categorical entries likewise hands back the first parent itself. -/
theorem base_crossover_returns_parent_object :
    baseCrossoverObj [catD1, catD2] 0 1 [0] = (0, [catD1, catD2], []) ∧
    ¬ 2 ≤ (baseCrossoverObj [catD1, catD2] 0 1 [0]).1 ∧
    Dist.crossoverFull catD1 catD2 [0] = .ok ((catD1, catD1, catD2), []) := by
  have h1 : baseCrossoverObj [catD1, catD2] 0 1 [0] = (0, [catD1, catD2], []) := by
    norm_num [baseCrossoverObj, drawChoice, drawUnit, nextR, Int.fract]
  refine ⟨h1, by rw [h1]; decide, ?_⟩
  norm_num [Dist.crossoverFull, catD1, catD2, RFun.fname, RFun.kind,
    drawChoice, drawUnit, nextR, Int.fract]

end PTO
